import Mathlib

/-!
# Verification of the hmat-oss admissibility and compression core

This file gives a shallow embedding, in Lean 4, of the block-compression
engine (`src/compression.cpp`) and the standard admissibility condition
(`src/admissibility.cpp`) of the hmat-oss library, together with theorems
checking the natural-language specification of those components.

Modelling conventions:
* the scalar type is `ℚ` (the real instantiation of the C++ templates,
  in exact arithmetic);
* C++ vectors (`Vector<T>`) are `List ℚ`; dense blocks reached through the
  assembly adapter are functions `ℕ → ℕ → ℚ` together with explicit
  dimensions, matching `getRow`/`getCol` materialisation on demand;
* raw column-major buffers (`FullMatrix<T>` with its `lda`) are modelled
  explicitly where the addressed offsets matter;
* out-of-bounds accesses and `HMAT_ASSERT` aborts are modelled by `Option`:
  a run returns `none` exactly where the C++ run aborts or commits
  undefined behaviour;
* BLAS `i_amax` returns the first index attaining the maximal absolute
  value; for rational scalars we compare squares, which selects the same
  index.
-/

namespace HmatOss

/-- `squaredNorm` from compression.cpp for real scalars: `x * x`. -/
def squaredNorm (x : ℚ) : ℚ := x * x

/-- `Vector<T>::dot` (real instantiation, no conjugation): `∑ xᵢ·yᵢ`. -/
def dotQ (x y : List ℚ) : ℚ := (List.zipWith (· * ·) x y).sum

/-- `Vector<T>::normSqr`: `real (dot v v)`. -/
def normSqrQ (v : List ℚ) : ℚ := dotQ v v

/-- `Vector<T>::axpy alpha x`: `v ← v + alpha·x` (elementwise). -/
def axpyQ (alpha : ℚ) (x v : List ℚ) : List ℚ :=
  List.zipWith (fun a b => b + alpha * a) x v

/-- `Vector<T>::scale alpha`: elementwise multiplication. -/
def scaleQ (alpha : ℚ) (v : List ℚ) : List ℚ := v.map (alpha * ·)

/-- Scan of `proxy_cblas::i_amax`: running best index and best squared
value; a later entry replaces the best only when strictly larger. -/
def absMaxIdxAux : List ℚ → ℕ → ℕ → ℚ → ℕ
  | [], _, best, _ => best
  | x :: xs, i, best, bn =>
    if bn < x * x then absMaxIdxAux xs (i + 1) i (x * x)
    else absMaxIdxAux xs (i + 1) best bn

/-- `Vector<T>::absoluteMaxIndex` (BLAS `i_amax`): first index attaining
the maximal absolute value.  On an empty vector the C++ call is out of
contract; we return 0, and all uses below are on non-empty vectors. -/
def absMaxIdx : List ℚ → ℕ
  | [] => 0
  | x :: xs => absMaxIdxAux xs 1 0 (x * x)

/-- `isZero` from compression.cpp: look at the entry of maximal absolute
value and compare it with zero. -/
def isZeroVec (v : List ℚ) : Bool := v.getD (absMaxIdx v) 0 == 0

lemma absMaxIdxAux_spec (f : ℕ → ℚ) :
    ∀ (xs : List ℚ) (i best : ℕ) (bn : ℚ),
      (∀ k, k < xs.length → xs.getD k 0 = f (i + k)) →
      bn = f best * f best →
      (absMaxIdxAux xs i best bn = best ∨
        ∃ k, k < xs.length ∧ absMaxIdxAux xs i best bn = i + k) ∧
      (∀ k, k < xs.length →
        f (i + k) * f (i + k) ≤
          f (absMaxIdxAux xs i best bn) * f (absMaxIdxAux xs i best bn)) ∧
      f best * f best ≤
        f (absMaxIdxAux xs i best bn) * f (absMaxIdxAux xs i best bn) := by
  intro xs
  induction xs with
  | nil =>
    intro i best bn _ hbn
    refine ⟨Or.inl rfl, ?_, ?_⟩
    · intro k hk; exact absurd hk (Nat.not_lt_zero k)
    · simp [absMaxIdxAux, hbn]
  | cons x xs ih =>
    intro i best bn hxs hbn
    have hx : x = f i := by
      have := hxs 0 (Nat.succ_pos _)
      simpa using this
    have hxs' : ∀ k, k < xs.length → xs.getD k 0 = f (i + 1 + k) := by
      intro k hk
      have := hxs (k + 1) (by simpa using Nat.succ_lt_succ hk)
      simpa [Nat.add_assoc, Nat.add_comm 1 k] using this
    by_cases hlt : bn < x * x
    · have h := ih (i + 1) i (x * x) hxs' (by rw [hx])
      simp only [absMaxIdxAux, if_pos hlt]
      refine ⟨?_, ?_, ?_⟩
      · rcases h.1 with h1 | ⟨k, hk, hk2⟩
        · exact Or.inr ⟨0, Nat.succ_pos _, by simpa using h1⟩
        · exact Or.inr ⟨k + 1, by simpa using Nat.succ_lt_succ hk,
            by simpa [Nat.add_assoc, Nat.add_comm 1 k] using hk2⟩
      · intro k hk
        match k with
        | 0 =>
          simpa using hx ▸ h.2.2
        | k + 1 =>
          have hk' : k < xs.length := by simpa using Nat.lt_of_succ_lt_succ hk
          have := h.2.1 k hk'
          simpa [Nat.add_assoc, Nat.add_comm 1 k] using this
      · have hle : f best * f best ≤ f i * f i := le_of_lt (by rw [← hx, ← hbn]; exact hlt)
        calc f best * f best ≤ f i * f i := hle
          _ ≤ _ := by simpa [hx] using h.2.2
    · have h := ih (i + 1) best bn hxs' hbn
      simp only [absMaxIdxAux, if_neg hlt]
      refine ⟨?_, ?_, h.2.2⟩
      · rcases h.1 with h1 | ⟨k, hk, hk2⟩
        · exact Or.inl h1
        · exact Or.inr ⟨k + 1, by simpa using Nat.succ_lt_succ hk,
            by simpa [Nat.add_assoc, Nat.add_comm 1 k] using hk2⟩
      · intro k hk
        match k with
        | 0 =>
          have hxx : x * x ≤ bn := not_lt.mp hlt
          have := h.2.2
          have : f i * f i ≤ f (absMaxIdxAux xs (i + 1) best bn) *
              f (absMaxIdxAux xs (i + 1) best bn) := by
            calc f i * f i = x * x := by rw [hx]
              _ ≤ bn := hxx
              _ = f best * f best := hbn
              _ ≤ _ := h.2.2
          simpa using this
        | k + 1 =>
          have hk' : k < xs.length := by simpa using Nat.lt_of_succ_lt_succ hk
          have := h.2.1 k hk'
          simpa [Nat.add_assoc, Nat.add_comm 1 k] using this

/-- On a non-empty vector `absMaxIdx` stays in bounds. -/
lemma absMaxIdx_lt_length {v : List ℚ} (hv : v ≠ []) : absMaxIdx v < v.length := by
  match v, hv with
  | x :: xs, _ =>
    have h := absMaxIdxAux_spec (fun j => (x :: xs).getD j 0) xs 1 0 (x * x)
      (by intro k hk; simp [Nat.add_comm 1 k]) (by simp)
    rcases h.1 with h1 | ⟨k, hk, hk2⟩
    · simp [absMaxIdx, h1]
    · simp only [absMaxIdx, hk2]
      simpa [Nat.add_comm 1 k] using Nat.succ_lt_succ hk

/-- The entry at `absMaxIdx` dominates every entry in square. -/
lemma absMaxIdx_dominates {v : List ℚ} :
    ∀ k, k < v.length →
      v.getD k 0 * v.getD k 0 ≤ v.getD (absMaxIdx v) 0 * v.getD (absMaxIdx v) 0 := by
  match v with
  | [] => intro k hk; exact absurd hk (Nat.not_lt_zero k)
  | x :: xs =>
    have h := absMaxIdxAux_spec (fun j => (x :: xs).getD j 0) xs 1 0 (x * x)
      (by intro k hk; simp [Nat.add_comm 1 k]) (by simp)
    intro k hk
    match k with
    | 0 => simpa [absMaxIdx] using h.2.2
    | k + 1 =>
      have hk' : k < xs.length := by simpa using Nat.lt_of_succ_lt_succ hk
      have := h.2.1 k hk'
      simpa [absMaxIdx, Nat.add_comm 1 k] using this

/-- `isZero` truly characterises the all-zero vector. -/
lemma isZeroVec_iff {v : List ℚ} : isZeroVec v = true ↔ ∀ x ∈ v, x = 0 := by
  constructor
  · intro h x hx
    rcases List.mem_iff_getElem.mp hx with ⟨k, hk, rfl⟩
    have hdom := absMaxIdx_dominates (v := v) k hk
    have hzero : v.getD (absMaxIdx v) 0 = 0 := by
      simpa [isZeroVec] using h
    rw [hzero] at hdom
    have h2 : v.getD k 0 * v.getD k 0 ≤ 0 := by simpa using hdom
    have h3 : v.getD k 0 = 0 := by nlinarith [mul_self_nonneg (v.getD k 0)]
    rwa [List.getD_eq_getElem v 0 hk] at h3
  · intro h
    rcases Nat.lt_or_ge (absMaxIdx v) v.length with hlt | hge
    · have : v.getD (absMaxIdx v) 0 = 0 := by
        rw [List.getD_eq_getElem v 0 hlt]
        exact h _ (List.getElem_mem hlt)
      simp [isZeroVec, ← List.getD_eq_getElem?_getD, this]
    · have : v.getD (absMaxIdx v) 0 = 0 := List.getD_eq_default v 0 hge
      simp [isZeroVec, ← List.getD_eq_getElem?_getD, this]

/-! ## Deflation (`updateRow` / `updateCol`) and residuals -/

/-- Row of the block materialised on demand (`block.getRow`):
length-`c` vector `j ↦ M i j`. -/
def getRowM (M : ℕ → ℕ → ℚ) (c i : ℕ) : List ℚ :=
  (List.range c).map (fun j => M i j)

/-- Column of the block materialised on demand (`block.getCol`). -/
def getColM (M : ℕ → ℕ → ℚ) (r j : ℕ) : List ℚ :=
  (List.range r).map (fun i => M i j)

/-- `updateRow` from compression.cpp:
`vec ← vec − ∑_l coefs[l][idx] · dirs[l]`, one AXPY per accepted pair.
The C++ call passes an explicit bound `k`; at every call site that bound
equals the number of pairs actually deflated against, which is the length
of the shorter of the two lists here. -/
def deflate (idx : ℕ) : List (List ℚ) → List (List ℚ) → List ℚ → List ℚ
  | d :: ds, co :: cs, vec => deflate idx ds cs (axpyQ (-(co.getD idx 0)) d vec)
  | _, _, vec => vec

/-- Residual entry `(i, j)` of the block after subtracting the accepted
rank-one pairs: `M i j − ∑_l aCols[l][i]·bCols[l][j]`. -/
def resid (M : ℕ → ℕ → ℚ) (aCols bCols : List (List ℚ)) (i j : ℕ) : ℚ :=
  M i j - ((aCols.zip bCols).map (fun p => p.1.getD i 0 * p.2.getD j 0)).sum

lemma axpyQ_length {alpha : ℚ} {x v : List ℚ} (h : x.length = v.length) :
    (axpyQ alpha x v).length = v.length := by
  simp [axpyQ, h]

lemma axpyQ_getD {alpha : ℚ} {x v : List ℚ} (h : x.length = v.length) (t : ℕ) :
    (axpyQ alpha x v).getD t 0 = v.getD t 0 + alpha * x.getD t 0 := by
  rcases Nat.lt_or_ge t v.length with hlt | hge
  · have hx : t < x.length := h ▸ hlt
    have hz : t < (axpyQ alpha x v).length := by rw [axpyQ_length h]; exact hlt
    rw [List.getD_eq_getElem _ 0 hz, List.getD_eq_getElem _ 0 hlt,
      List.getD_eq_getElem _ 0 hx]
    simp [axpyQ]
  · have hx : x.length ≤ t := h ▸ hge
    have hz : (axpyQ alpha x v).length ≤ t := by rw [axpyQ_length h]; exact hge
    rw [List.getD_eq_default _ 0 hz, List.getD_eq_default _ 0 hge,
      List.getD_eq_default _ 0 hx]
    ring

lemma deflate_length {idx : ℕ} :
    ∀ (dirs coefs : List (List ℚ)) (vec : List ℚ),
      (∀ d ∈ dirs, d.length = vec.length) →
      (deflate idx dirs coefs vec).length = vec.length := by
  intro dirs
  induction dirs with
  | nil => intro coefs vec _; cases coefs <;> rfl
  | cons d ds ih =>
    intro coefs vec h
    cases coefs with
    | nil => rfl
    | cons co cs =>
      have hd : d.length = vec.length := h d (List.mem_cons_self _ _)
      have hlen : (axpyQ (-(co.getD idx 0)) d vec).length = vec.length :=
        axpyQ_length hd
      rw [deflate, ih cs _ (by intro d' hd'; rw [hlen]; exact h d' (List.mem_cons_of_mem _ hd'))]
      exact hlen

lemma deflate_getD {idx : ℕ} :
    ∀ (dirs coefs : List (List ℚ)) (vec : List ℚ),
      (∀ d ∈ dirs, d.length = vec.length) →
      ∀ t, (deflate idx dirs coefs vec).getD t 0 =
        vec.getD t 0 -
          ((dirs.zip coefs).map (fun p => p.2.getD idx 0 * p.1.getD t 0)).sum := by
  intro dirs
  induction dirs with
  | nil => intro coefs vec _ t; cases coefs <;> simp [deflate]
  | cons d ds ih =>
    intro coefs vec h t
    cases coefs with
    | nil => simp [deflate]
    | cons co cs =>
      have hd : d.length = vec.length := h d (List.mem_cons_self _ _)
      have hlen : (axpyQ (-(co.getD idx 0)) d vec).length = vec.length :=
        axpyQ_length hd
      rw [deflate, ih cs _ (by intro d' hd'; rw [hlen]; exact h d' (List.mem_cons_of_mem _ hd')) t,
        axpyQ_getD hd t]
      simp only [List.zip_cons_cons, List.map_cons, List.sum_cons]
      ring

/-- List equality from equal lengths and equal `getD` entries. -/
lemma list_eq_of_getD {xs ys : List ℚ} (hl : xs.length = ys.length)
    (h : ∀ t, xs.getD t 0 = ys.getD t 0) : xs = ys := by
  apply List.ext_getElem hl
  intro i h1 h2
  have := h i
  rwa [List.getD_eq_getElem _ 0 h1, List.getD_eq_getElem _ 0 h2] at this

/-- The residual row as a vector. -/
def residRow (M : ℕ → ℕ → ℚ) (aCols bCols : List (List ℚ)) (c i : ℕ) : List ℚ :=
  (List.range c).map (fun j => resid M aCols bCols i j)

/-- The residual column as a vector. -/
def residCol (M : ℕ → ℕ → ℚ) (aCols bCols : List (List ℚ)) (r j : ℕ) : List ℚ :=
  (List.range r).map (fun i => resid M aCols bCols i j)

lemma getD_range_map {f : ℕ → ℚ} {n t : ℕ} :
    ((List.range n).map f).getD t 0 = if t < n then f t else 0 := by
  rcases Nat.lt_or_ge t n with hlt | hge
  · rw [List.getD_eq_getElem _ 0 (by simpa using hlt)]
    simp [hlt]
  · rw [List.getD_eq_default _ 0 (by simpa using hge)]
    simp [Nat.not_lt.mpr hge]

/-- Deflating a fetched row against the accepted pairs yields the residual
row: `updateRow(bCol, i, bCols, aCols, k)` computes row `i` of the residual
matrix. -/
lemma deflate_row_eq_residRow {M : ℕ → ℕ → ℚ} {aCols bCols : List (List ℚ)} {c i : ℕ}
    (hb : ∀ b ∈ bCols, b.length = c) :
    deflate i bCols aCols (getRowM M c i) = residRow M aCols bCols c i := by
  have hdir : ∀ d ∈ bCols, d.length = (getRowM M c i).length := by
    intro d hd; rw [hb d hd]; simp [getRowM]
  apply list_eq_of_getD
  · rw [deflate_length bCols aCols _ hdir]; simp [getRowM, residRow]
  · intro t
    rw [deflate_getD bCols aCols _ hdir t]
    rcases Nat.lt_or_ge t c with hlt | hge
    · have h1 : (getRowM M c i).getD t 0 = M i t := by
        simp [getRowM, getD_range_map, hlt]
      have h2 : (residRow M aCols bCols c i).getD t 0 = resid M aCols bCols i t := by
        simp [residRow, getD_range_map, hlt]
      rw [h1, h2, resid]
      congr 1
      have hswap : bCols.zip aCols = (aCols.zip bCols).map Prod.swap := by
        rw [List.zip_swap]
      rw [hswap, List.map_map]
      congr 1
    · have h1 : (getRowM M c i).getD t 0 = 0 :=
        List.getD_eq_default _ 0 (by simp [getRowM]; exact hge)
      have h2 : (residRow M aCols bCols c i).getD t 0 = 0 :=
        List.getD_eq_default _ 0 (by simp [residRow]; exact hge)
      have hsum : ((bCols.zip aCols).map (fun p => p.2.getD i 0 * p.1.getD t 0)).sum = 0 := by
        apply List.sum_eq_zero
        intro x hx
        rcases List.mem_map.mp hx with ⟨⟨p1, p2⟩, hp, rfl⟩
        have hp1 : p1 ∈ bCols := (List.of_mem_zip hp).1
        have hz : p1.getD t 0 = 0 :=
          List.getD_eq_default _ 0 (by rw [hb p1 hp1]; exact hge)
        simp only
        rw [hz, mul_zero]
      rw [h1, h2, hsum]
      ring

/-- Deflating a fetched column yields the residual column. -/
lemma deflate_col_eq_residCol {M : ℕ → ℕ → ℚ} {aCols bCols : List (List ℚ)} {r j : ℕ}
    (haa : ∀ a ∈ aCols, a.length = r) :
    deflate j aCols bCols (getColM M r j) = residCol M aCols bCols r j := by
  have hdir : ∀ d ∈ aCols, d.length = (getColM M r j).length := by
    intro d hd; rw [haa d hd]; simp [getColM]
  apply list_eq_of_getD
  · rw [deflate_length aCols bCols _ hdir]; simp [getColM, residCol]
  · intro t
    rw [deflate_getD aCols bCols _ hdir t]
    rcases Nat.lt_or_ge t r with hlt | hge
    · have h1 : (getColM M r j).getD t 0 = M t j := by
        simp [getColM, getD_range_map, hlt]
      have h2 : (residCol M aCols bCols r j).getD t 0 = resid M aCols bCols t j := by
        simp [residCol, getD_range_map, hlt]
      rw [h1, h2, resid]
      congr 1
      exact congrArg List.sum (List.map_congr_left fun (p : List ℚ × List ℚ) _ =>
        mul_comm (p.2.getD j 0) (p.1.getD t 0))
    · have h1 : (getColM M r j).getD t 0 = 0 :=
        List.getD_eq_default _ 0 (by simp [getColM]; exact hge)
      have h2 : (residCol M aCols bCols r j).getD t 0 = 0 :=
        List.getD_eq_default _ 0 (by simp [residCol]; exact hge)
      have hsum : ((aCols.zip bCols).map (fun p => p.2.getD j 0 * p.1.getD t 0)).sum = 0 := by
        apply List.sum_eq_zero
        intro x hx
        rcases List.mem_map.mp hx with ⟨⟨p1, p2⟩, hp, rfl⟩
        have hp1 : p1 ∈ aCols := (List.of_mem_zip hp).1
        have hz : p1.getD t 0 = 0 :=
          List.getD_eq_default _ 0 (by rw [haa p1 hp1]; exact hge)
        simp only
        rw [hz, mul_zero]
      rw [h1, h2, hsum]
      ring

/-! ## Index-search helpers -/

/-- Scan of the pivot-selection loops in `compressAcaPartial`:
`maxNorm2 = 0; for j { if (free[j] && norm2 > maxNorm2) { J = j; … } }`;
when no free entry beats 0 the previous value of `J` is kept. -/
def selectPivotGo : List (Bool × ℚ) → ℕ → ℕ → ℚ → ℕ
  | [], _, best, _ => best
  | (fr, x) :: rest, j, best, bn =>
    if fr = true ∧ bn < x * x then selectPivotGo rest (j + 1) j (x * x)
    else selectPivotGo rest (j + 1) best bn

def selectPivot (free : List Bool) (v : List ℚ) (init : ℕ) : ℕ :=
  selectPivotGo (free.zip v) 0 init 0

lemma selectPivotGo_cases :
    ∀ (l : List (Bool × ℚ)) (j best : ℕ) (bn : ℚ),
      selectPivotGo l j best bn = best ∨
        ∃ k, k < l.length ∧ selectPivotGo l j best bn = j + k := by
  intro l
  induction l with
  | nil => intro j best bn; exact Or.inl rfl
  | cons p rest ih =>
    rcases p with ⟨fr, x⟩
    intro j best bn
    by_cases h : fr = true ∧ bn < x * x
    · simp only [selectPivotGo, if_pos h]
      rcases ih (j + 1) j (x * x) with h1 | ⟨k, hk, hk2⟩
      · exact Or.inr ⟨0, Nat.succ_pos _, by simpa using h1⟩
      · exact Or.inr ⟨k + 1, by simpa using Nat.succ_lt_succ hk,
          hk2.trans (by omega)⟩
    · simp only [selectPivotGo, if_neg h]
      rcases ih (j + 1) best bn with h1 | ⟨k, hk, hk2⟩
      · exact Or.inl h1
      · exact Or.inr ⟨k + 1, by simpa using Nat.succ_lt_succ hk,
          hk2.trans (by omega)⟩

/-- The selected pivot index either keeps its previous value or is a
scanned (in-bounds) index. -/
lemma selectPivot_cases (free : List Bool) (v : List ℚ) (init : ℕ) :
    selectPivot free v init = init ∨
      selectPivot free v init < min free.length v.length := by
  rcases selectPivotGo_cases (free.zip v) 0 init 0 with h | ⟨k, hk, hk2⟩
  · exact Or.inl h
  · refine Or.inr ?_
    rw [selectPivot, hk2]
    simpa [List.length_zip] using hk

/-- The fallback search of `compressAcaPartial`:
`I = 0; while (!rowFree[I]) I++;` — returns the least free index, or
`none` when the scan runs past the end of the array. -/
def firstFree : List Bool → Option ℕ
  | [] => none
  | b :: bs => if b then some 0 else (firstFree bs).map (· + 1)

lemma firstFree_some_lt : ∀ {l : List Bool} {i : ℕ}, firstFree l = some i → i < l.length := by
  intro l
  induction l with
  | nil => intro i h; simp [firstFree] at h
  | cons b bs ih =>
    intro i h
    by_cases hb : b
    · simp [firstFree, hb] at h
      subst h
      simp
    · simp only [firstFree, if_neg hb, Option.map_eq_some'] at h
      rcases h with ⟨j, hj, rfl⟩
      simpa using Nat.succ_lt_succ (ih hj)

lemma firstFree_none_iff : ∀ {l : List Bool}, firstFree l = none ↔ ∀ b ∈ l, b = false := by
  intro l
  induction l with
  | nil => simp [firstFree]
  | cons b bs ih =>
    by_cases hb : b
    · simp [firstFree, hb]
    · simp [firstFree, hb, ih, Bool.eq_false_iff.mpr hb]

/-- `firstFree` returns the least free index. -/
lemma firstFree_least : ∀ {l : List Bool} {i : ℕ}, firstFree l = some i →
    l.getD i false = true ∧ ∀ t, t < i → l.getD t false = false := by
  intro l
  induction l with
  | nil => intro i h; simp [firstFree] at h
  | cons b bs ih =>
    intro i h
    by_cases hb : b
    · simp [firstFree, hb] at h
      subst h
      exact ⟨by simpa using hb, fun t ht => absurd ht (Nat.not_lt_zero t)⟩
    · simp only [firstFree, if_neg hb, Option.map_eq_some'] at h
      rcases h with ⟨j, hj, rfl⟩
      rcases ih hj with ⟨h1, h2⟩
      refine ⟨by simpa using h1, ?_⟩
      intro t ht
      match t with
      | 0 => simpa using Bool.eq_false_iff.mpr hb
      | t + 1 => simpa using h2 t (Nat.lt_of_succ_lt_succ ht)

/-- Scan of the arg-min loops in `findMinRow` / `findMinCol`
(initial best value `DBL_MAX`, modelled by an empty accumulator;
a free entry replaces the best only when strictly smaller). -/
def argminFreeGo : List (Bool × ℚ) → ℕ → Option (ℕ × ℚ) → Option ℕ
  | [], _, acc => acc.map Prod.fst
  | (fr, x) :: rest, i, acc =>
    if fr then
      match acc with
      | none => argminFreeGo rest (i + 1) (some (i, x * x))
      | some (b, bn) =>
        if x * x < bn then argminFreeGo rest (i + 1) (some (i, x * x))
        else argminFreeGo rest (i + 1) (some (b, bn))
    else argminFreeGo rest (i + 1) acc

def argminFree (free : List Bool) (v : List ℚ) : Option ℕ :=
  argminFreeGo (free.zip v) 0 none

lemma argminFreeGo_some_cases :
    ∀ (l : List (Bool × ℚ)) (i : ℕ) (acc : Option (ℕ × ℚ)) {res : ℕ},
      argminFreeGo l i acc = some res →
      (∃ bn, acc = some (res, bn)) ∨ ∃ k, k < l.length ∧ res = i + k := by
  intro l
  induction l with
  | nil =>
    intro i acc res h
    rcases acc with _ | ⟨b, bn⟩
    · simp [argminFreeGo] at h
    · simp [argminFreeGo] at h
      exact Or.inl ⟨bn, by rw [h]⟩
  | cons p rest ih =>
    rcases p with ⟨fr, x⟩
    intro i acc res h
    by_cases hfr : fr
    · rcases acc with _ | ⟨b, bn⟩
      · simp only [argminFreeGo, if_pos hfr] at h
        rcases ih (i + 1) (some (i, x * x)) h with ⟨bn', hbn⟩ | ⟨k, hk, hk2⟩
        · exact Or.inr ⟨0, Nat.succ_pos _, by
            have hres : i = res := by
              simpa using congrArg (fun o => (Option.map Prod.fst o).getD 0) hbn
            omega⟩
        · exact Or.inr ⟨k + 1, by simpa using Nat.succ_lt_succ hk, by omega⟩
      · simp only [argminFreeGo, if_pos hfr] at h
        by_cases hlt : x * x < bn
        · rw [if_pos hlt] at h
          rcases ih (i + 1) (some (i, x * x)) h with ⟨bn', hbn⟩ | ⟨k, hk, hk2⟩
          · exact Or.inr ⟨0, Nat.succ_pos _, by
              have hres : i = res := by
                simpa using congrArg (fun o => (Option.map Prod.fst o).getD 0) hbn
              omega⟩
          · exact Or.inr ⟨k + 1, by simpa using Nat.succ_lt_succ hk, by omega⟩
        · rw [if_neg hlt] at h
          rcases ih (i + 1) (some (b, bn)) h with ⟨bn', hbn⟩ | ⟨k, hk, hk2⟩
          · have hres : b = res := by
              simpa using congrArg (fun o => (Option.map Prod.fst o).getD 0) hbn
            exact Or.inl ⟨bn, by rw [← hres]⟩
          · exact Or.inr ⟨k + 1, by simpa using Nat.succ_lt_succ hk, by omega⟩
    · simp only [argminFreeGo, if_neg hfr] at h
      rcases ih (i + 1) acc h with h1 | ⟨k, hk, hk2⟩
      · exact Or.inl h1
      · exact Or.inr ⟨k + 1, by simpa using Nat.succ_lt_succ hk, by omega⟩

lemma argminFree_some_lt {free : List Bool} {v : List ℚ} {res : ℕ}
    (h : argminFree free v = some res) : res < min free.length v.length := by
  rcases argminFreeGo_some_cases (free.zip v) 0 none h with ⟨bn, hbn⟩ | ⟨k, hk, hk2⟩
  · simp at hbn
  · rw [hk2]
    simpa [List.length_zip] using hk

/-! ## Compression methods and low-rank results -/

/-- The `CompressionMethod` enum. -/
inductive Method where
  | NoCompression | Svd | AcaFull | AcaPartial | AcaPlus
deriving DecidableEq

/-- `RkMatrix<T>`: either empty (both factors `none`) or a pair of factors
stored as lists of columns, plus the method tag. -/
structure RkQ where
  a : Option (List (List ℚ))
  b : Option (List (List ℚ))
  method : Method
deriving DecidableEq

/-- `RkMatrix::rank()`: number of columns of `a` (0 when absent). -/
def RkQ.rank (rk : RkQ) : ℕ :=
  match rk.a with
  | none => 0
  | some A => A.length

/-! ## ACA-full (`compressAcaFull`) -/

/-- State threaded through the `compressAcaFull` main loop: the in-place
updated residual matrix `R`, the two factor buffers, and the running
squared-norm estimate. -/
structure FullState where
  R : ℕ → ℕ → ℚ
  tmpA : List (List ℚ)
  tmpB : List (List ℚ)
  est : ℚ

/-- Scan of `findMax`: strictly-greater replacement, seeded with entry
`(0, 0)`. -/
def findMaxGo (R : ℕ → ℕ → ℚ) : List (ℕ × ℕ) → (ℕ × ℕ) → ℚ → ℕ × ℕ
  | [], best, _ => best
  | ij :: rest, best, bn =>
    if bn < squaredNorm (R ij.1 ij.2) then findMaxGo R rest ij (squaredNorm (R ij.1 ij.2))
    else findMaxGo R rest best bn

/-- Column-major scan order of `findMax` (outer loop on columns). -/
def scanOrder (r c : ℕ) : List (ℕ × ℕ) :=
  (List.range c).flatMap (fun col => (List.range r).map (fun row => (row, col)))

/-- `findMax`: position of the first entry (in column-major order)
attaining the maximal squared modulus. -/
def findMax (R : ℕ → ℕ → ℚ) (r c : ℕ) : ℕ × ℕ :=
  findMaxGo R (scanOrder r c) (0, 0) (squaredNorm (R 0 0))

/-- One iteration of the `compressAcaFull` loop.  The returned Bool is
`true` when the loop `break`s (zero pivot, or stopping criterion met).
The cross-term sum reproduces the C++ loop bound `l < nu - 1` exactly. -/
def acaFullBody (r c : ℕ) (eps : ℚ) (s : FullState) : FullState × Bool :=
  let ij := findMax s.R r c
  let delta := s.R ij.1 ij.2
  if squaredNorm delta = 0 then (s, true)
  else
    let a := getColM s.R r ij.2
    let b := (List.range c).map (fun j => s.R ij.1 j / delta)
    let R' := fun i' j' => s.R i' j' - a.getD i' 0 * b.getD j' 0
    let nu := s.tmpA.length
    let newEst := (((s.tmpA.zip s.tmpB).take (nu - 1)).map
      (fun p => dotQ a p.1 * dotQ b p.2)).sum
    let abNorm := normSqrQ a * normSqrQ b
    let est' := s.est + 2 * newEst + abNorm
    ({ R := R', tmpA := s.tmpA ++ [a], tmpB := s.tmpB ++ [b], est := est' },
      decide (abNorm < eps * eps * est'))

/-- The `for (nu = 0; nu < maxK; nu++)` loop: the counter equals the fuel
consumed, so running the body `maxK` times is exact. -/
def acaFullLoop (r c : ℕ) (eps : ℚ) : ℕ → FullState → FullState
  | 0, s => s
  | fuel + 1, s =>
    match acaFullBody r c eps s with
    | (s', true) => s'
    | (s', false) => acaFullLoop r c eps fuel s'

/-- `maxK = min(rows, cols)`, further capped by `approx.k` when positive. -/
def acaFullMaxK (r c kParam : ℕ) : ℕ :=
  if 0 < kParam then min (min r c) kParam else min r c

def acaFullRun (M : ℕ → ℕ → ℚ) (r c : ℕ) (eps : ℚ) (kParam : ℕ) : FullState :=
  acaFullLoop r c eps (acaFullMaxK r c kParam) { R := M, tmpA := [], tmpB := [], est := 0 }

/-- `compressAcaFull`: empty `Rk` when no pivot was accepted, otherwise
the two factor buffers truncated to the accepted rank. -/
def compressAcaFull (M : ℕ → ℕ → ℚ) (r c : ℕ) (eps : ℚ) (kParam : ℕ) : RkQ :=
  let s := acaFullRun M r c eps kParam
  if s.tmpA.length = 0 then { a := none, b := none, method := Method.AcaFull }
  else { a := some s.tmpA, b := some s.tmpB, method := Method.AcaFull }

/-! ## ACA-partial (`compressAcaPartial`) -/

/-- State of the `compressAcaPartial` loop.  `pivRows` / `pivCols` record
the accepted pivot indices in order; they duplicate information already
implicit in the run and do not influence the computation. -/
structure PartialState where
  rowFree : List Bool
  colFree : List Bool
  aCols : List (List ℚ)
  bCols : List (List ℚ)
  pivRows : List ℕ
  pivCols : List ℕ
  curI : ℕ
  curJ : ℕ
  k : ℕ
  rpc : ℕ
  est : ℚ
deriving DecidableEq

/-- The deflated pivot row `bCol` of the current `compressAcaPartial`
iteration: `getRow(I)` followed by `updateRow` against the accepted
pairs. -/
def pBCol (M : ℕ → ℕ → ℚ) (c : ℕ) (s : PartialState) : List ℚ :=
  deflate s.curI s.bCols s.aCols (getRowM M c s.curI)

/-- The pivot column index `J` selected by the free-column argmax scan. -/
def pJ (M : ℕ → ℕ → ℚ) (c : ℕ) (s : PartialState) : ℕ :=
  selectPivot s.colFree (pBCol M c s) s.curJ

/-- The scaled pivot row pushed onto `bCols` (`bCol /= bCol[J]`). -/
def pBColS (M : ℕ → ℕ → ℚ) (c : ℕ) (s : PartialState) : List ℚ :=
  scaleQ (1 / (pBCol M c s).getD (pJ M c s) 0) (pBCol M c s)

/-- The deflated pivot column pushed onto `aCols`. -/
def pACol (M : ℕ → ℕ → ℚ) (r c : ℕ) (s : PartialState) : List ℚ :=
  deflate (pJ M c s) s.aCols s.bCols (getColM M r (pJ M c s))

/-- `‖aCol‖²·‖bCol‖²` of the accepted pair. -/
def pAbNorm (M : ℕ → ℕ → ℚ) (r c : ℕ) (s : PartialState) : ℚ :=
  normSqrQ (pACol M r c s) * normSqrQ (pBColS M c s)

/-- The state after an accepted `compressAcaPartial` iteration. -/
def pAccept (M : ℕ → ℕ → ℚ) (r c : ℕ) (s : PartialState) : PartialState :=
  { rowFree := s.rowFree.set s.curI false,
    colFree := s.colFree.set (pJ M c s) false,
    aCols := s.aCols ++ [pACol M r c s],
    bCols := s.bCols ++ [pBColS M c s],
    pivRows := s.pivRows ++ [s.curI],
    pivCols := s.pivCols ++ [pJ M c s],
    curI := selectPivot (s.rowFree.set s.curI false) (pACol M r c s) s.curI,
    curJ := pJ M c s,
    k := s.k + 1, rpc := s.rpc + 1,
    est := s.est + 2 * ((s.aCols.zip s.bCols).map
      (fun p => dotQ (pACol M r c s) p.1 * dotQ (pBColS M c s) p.2)).sum +
      pAbNorm M r c s }

/-- One iteration of the `do { … } while (rowPivotCount < maxK)` body.
Returns `none` when the fallback search `while (!rowFree[I]) I++` runs
past the end of the array (undefined behaviour in the C++);
otherwise the updated state plus a `break` flag. -/
def acaPartialBody (M : ℕ → ℕ → ℚ) (r c : ℕ) (eps : ℚ) (s : PartialState) :
    Option (PartialState × Bool) :=
  if (pBCol M c s).getD (pJ M c s) 0 = 0 then
    match firstFree (s.rowFree.set s.curI false) with
    | none => none
    | some newI =>
      some ({ s with
                rowFree := s.rowFree.set s.curI false, rpc := s.rpc + 1,
                curI := newI, curJ := pJ M c s }, false)
  else
    some (pAccept M r c s,
      decide (pAbNorm M r c s < eps * eps * (pAccept M r c s).est))

/-- The do-while loop; every body increments `rowPivotCount`, so fuel
`maxK + 1` can never be exhausted. -/
def acaPartialLoop (M : ℕ → ℕ → ℚ) (r c : ℕ) (eps : ℚ) :
    ℕ → PartialState → Option PartialState
  | 0, _ => none
  | fuel + 1, s =>
    match acaPartialBody M r c eps s with
    | none => none
    | some (s', true) => some s'
    | some (s', false) =>
      if s'.rpc < min r c then acaPartialLoop M r c eps fuel s' else some s'

def initPartialState (r c : ℕ) : PartialState :=
  { rowFree := List.replicate r true, colFree := List.replicate c true,
    aCols := [], bCols := [], pivRows := [], pivCols := [],
    curI := 0, curJ := 0, k := 0, rpc := 0, est := 0 }

def acaPartialRun (M : ℕ → ℕ → ℚ) (r c : ℕ) (eps : ℚ) : Option PartialState :=
  acaPartialLoop M r c eps (min r c + 1) (initPartialState r c)

/-- `compressAcaPartial`: `none` models the out-of-bounds fallback;
`k = 0` yields the empty `Rk` (tag `AcaPartial`). -/
def compressAcaPartial (M : ℕ → ℕ → ℚ) (r c : ℕ) (eps : ℚ) : Option RkQ :=
  (acaPartialRun M r c eps).map (fun s =>
    if s.k = 0 then { a := none, b := none, method := Method.AcaPartial }
    else { a := some s.aCols, b := some s.bCols, method := Method.AcaPartial })

/-- Modelled from the spec: the running squared Frobenius-norm estimate,
`‖S_k‖² = ‖S_{k−1}‖² + 2·Re(∑_{l<k} ⟨aₖ, aₗ⟩·⟨bₖ, bₗ⟩) + ‖aₖ‖²·‖bₖ‖²`,
where the cross-term sum ranges over every previously accepted pair
`l = 0..k−1`.  (Comparison definition for the estimate actually computed
by the code.) -/
def specEstimateGo : List (List ℚ × List ℚ) → List (List ℚ × List ℚ) → ℚ → ℚ
  | [], _, est => est
  | (a, b) :: rest, prior, est =>
    specEstimateGo rest (prior ++ [(a, b)])
      (est + 2 * ((prior.map (fun p => dotQ a p.1 * dotQ b p.2)).sum) +
        normSqrQ a * normSqrQ b)

def specEstimate (pairs : List (List ℚ × List ℚ)) : ℚ := specEstimateGo pairs [] 0

/-! ## ACA+ (`compressAcaPlus`) -/

/-- State of the `compressAcaPlus` loop.  `iRef = none` encodes the C++
`i_ref == -1`.  `pivRows` / `pivCols` record the accepted pivot indices
in order without influencing the computation. -/
structure PlusState where
  rowFree : List Bool
  colFree : List Bool
  aCols : List (List ℚ)
  bCols : List (List ℚ)
  pivRows : List ℕ
  pivCols : List ℕ
  iRef : Option ℕ
  jRef : ℕ
  aRef : List ℚ
  bRef : List ℚ
  k : ℕ
  est : ℚ
deriving DecidableEq

/-- `findCol`: scan the columns in order; each visited column is marked
non-free; stop at the first non-zero one. -/
def findColGo (getCol : ℕ → List ℚ) : List ℕ → List Bool → List Bool × Option (ℕ × List ℚ)
  | [], free => (free, none)
  | j :: js, free =>
    if free.getD j false then
      let col := getCol j
      let free' := free.set j false
      if isZeroVec col then findColGo getCol js free' else (free', some (j, col))
    else findColGo getCol js free

def findCol (getCol : ℕ → List ℚ) (c : ℕ) (free : List Bool) :
    List Bool × Option (ℕ × List ℚ) :=
  findColGo getCol (List.range c) free

/-- `findMinRow`: repeatedly take the free row minimising `|aRef[i]|²`,
fetch and deflate it, mark it non-free, and stop once the deflated row is
non-zero.  Each round marks one row, so fuel `rows + 1` is never
exhausted; `none` models the C++ return value −1. -/
def findMinRow (M : ℕ → ℕ → ℚ) (c : ℕ) (aCols bCols : List (List ℚ)) (aRef : List ℚ) :
    ℕ → List Bool → List Bool × Option (ℕ × List ℚ)
  | 0, free => (free, none)
  | fuel + 1, free =>
    match argminFree free aRef with
    | none => (free, none)
    | some i =>
      let row := deflate i bCols aCols (getRowM M c i)
      let free' := free.set i false
      if isZeroVec row then findMinRow M c aCols bCols aRef fuel free'
      else (free', some (i, row))

/-- `findMinCol`, symmetric to `findMinRow`. -/
def findMinCol (M : ℕ → ℕ → ℚ) (r : ℕ) (aCols bCols : List (List ℚ)) (bRef : List ℚ) :
    ℕ → List Bool → List Bool × Option (ℕ × List ℚ)
  | 0, free => (free, none)
  | fuel + 1, free =>
    match argminFree free bRef with
    | none => (free, none)
    | some j =>
      let col := deflate j aCols bCols (getColM M r j)
      let free' := free.set j false
      if isZeroVec col then findMinCol M r aCols bCols bRef fuel free'
      else (free', some (j, col))

/-- The `while (!found)` loop of the `needNewA && needNewB` branch:
`findCol` then deflation, repeated until the deflated reference column is
non-zero or the columns are exhausted. -/
def refreshColLoop (M : ℕ → ℕ → ℚ) (r c : ℕ) (aCols bCols : List (List ℚ)) :
    ℕ → List Bool → List Bool × Option (ℕ × List ℚ)
  | 0, free => (free, none)
  | fuel + 1, free =>
    match findCol (getColM M r) c free with
    | (free', none) => (free', none)
    | (free', some (j, col)) =>
      let colD := deflate j aCols bCols col
      if isZeroVec colD then refreshColLoop M r c aCols bCols fuel free'
      else (free', some (j, colD))

/-- Branch 1 of the ACA+ pivot choice (`i_star` fixed): the deflated row
`i_star = absMaxIdx aRef`. -/
def qBVec1 (M : ℕ → ℕ → ℚ) (c : ℕ) (s : PlusState) : List ℚ :=
  deflate (absMaxIdx s.aRef) s.bCols s.aCols (getRowM M c (absMaxIdx s.aRef))

/-- Branch 1: the deflated column at `j_star = absMaxIdx bVec`, scaled by
the inverse pivot. -/
def qAVec1 (M : ℕ → ℕ → ℚ) (r c : ℕ) (s : PlusState) : List ℚ :=
  scaleQ (1 / (qBVec1 M c s).getD (absMaxIdx (qBVec1 M c s)) 0)
    (deflate (absMaxIdx (qBVec1 M c s)) s.aCols s.bCols
      (getColM M r (absMaxIdx (qBVec1 M c s))))

/-- Branch 2 of the ACA+ pivot choice (`j_star` fixed): the deflated
column `j_star = absMaxIdx bRef`. -/
def qAVec2 (M : ℕ → ℕ → ℚ) (r : ℕ) (s : PlusState) : List ℚ :=
  deflate (absMaxIdx s.bRef) s.aCols s.bCols (getColM M r (absMaxIdx s.bRef))

/-- Branch 2: the deflated row at `i_star = absMaxIdx aVec`, scaled by the
inverse pivot. -/
def qBVec2 (M : ℕ → ℕ → ℚ) (r c : ℕ) (s : PlusState) : List ℚ :=
  scaleQ (1 / (qAVec2 M r s).getD (absMaxIdx (qAVec2 M r s)) 0)
    (deflate (absMaxIdx (qAVec2 M r s)) s.bCols s.aCols
      (getRowM M c (absMaxIdx (qAVec2 M r s))))

/-- The ACA+ pivot selection: `none` models the `HMAT_ASSERT(pivot != 0)`
abort; otherwise `(i_star, j_star, aVec, bVec)`. -/
def qSel (M : ℕ → ℕ → ℚ) (r c : ℕ) (s : PlusState) :
    Option (ℕ × ℕ × List ℚ × List ℚ) :=
  if squaredNorm (s.bRef.getD (absMaxIdx s.bRef) 0) <
      squaredNorm (s.aRef.getD (absMaxIdx s.aRef) 0) then
    if (qBVec1 M c s).getD (absMaxIdx (qBVec1 M c s)) 0 = 0 then none
    else some (absMaxIdx s.aRef, absMaxIdx (qBVec1 M c s), qAVec1 M r c s, qBVec1 M c s)
  else
    if (qAVec2 M r s).getD (absMaxIdx (qAVec2 M r s)) 0 = 0 then none
    else some (absMaxIdx (qAVec2 M r s), absMaxIdx s.bRef, qAVec2 M r s, qBVec2 M r c s)

/-- State after pushing the accepted ACA+ pair and updating the running
estimate (references not yet refreshed). -/
def qBase (s : PlusState) (iStar jStar : ℕ) (aVec bVec : List ℚ) : PlusState :=
  { rowFree := s.rowFree.set iStar false, colFree := s.colFree.set jStar false,
    aCols := s.aCols ++ [aVec], bCols := s.bCols ++ [bVec],
    pivRows := s.pivRows ++ [iStar], pivCols := s.pivCols ++ [jStar],
    iRef := s.iRef, jRef := s.jRef, aRef := s.aRef, bRef := s.bRef,
    k := s.k + 1,
    est := s.est + 2 * ((s.aCols.zip s.bCols).map
      (fun p => dotQ aVec p.1 * dotQ bVec p.2)).sum + normSqrQ aVec * normSqrQ bVec }

/-- One iteration of the `compressAcaPlus` main loop.  `none` models the
`HMAT_ASSERT(pivot != 0)` abort and the out-of-bounds access
`aCols[k-1]->v[i_ref]` when `i_ref == -1`; the Bool is `true` when the
loop exits after this iteration. -/
def acaPlusBody (M : ℕ → ℕ → ℚ) (r c : ℕ) (eps : ℚ) (s : PlusState) :
    Option (PlusState × Bool) :=
  match qSel M r c s with
  | none => none
  | some (iStar, jStar, aVec, bVec) =>
    let base := qBase s iStar jStar aVec bVec
    if normSqrQ aVec * normSqrQ bVec < eps * eps * base.est then some (base, true)
    else
      let aRef1 := axpyQ (-(bVec.getD s.jRef 0)) aVec s.aRef
      match s.iRef with
      | none => none
      | some ir =>
        let bRef1 := axpyQ (-(aVec.getD ir 0)) bVec s.bRef
        let needNewA := isZeroVec aRef1 ∨ jStar = s.jRef
        let needNewB := isZeroVec bRef1 ∨ iStar = ir
        if needNewA ∧ needNewB then
          match refreshColLoop M r c (s.aCols ++ [aVec]) (s.bCols ++ [bVec])
              (c + 1) (s.colFree.set jStar false) with
          | (colFree2, none) =>
            some ({ base with colFree := colFree2, aRef := aRef1, bRef := bRef1 }, true)
          | (colFree2, some (jRef2, aRef2)) =>
            match findMinRow M c (s.aCols ++ [aVec]) (s.bCols ++ [bVec]) aRef2
                (r + 1) (s.rowFree.set iStar false) with
            | (rowFree2, none) =>
              some ({ base with
                        rowFree := rowFree2, colFree := colFree2,
                        jRef := jRef2, aRef := aRef2, bRef := bRef1 }, true)
            | (rowFree2, some (iRef2, bRef2)) =>
              some ({ base with
                        rowFree := rowFree2, colFree := colFree2,
                        iRef := some iRef2, jRef := jRef2,
                        aRef := aRef2, bRef := bRef2 }, false)
        else if needNewB then
          match findMinRow M c (s.aCols ++ [aVec]) (s.bCols ++ [bVec]) aRef1
              (r + 1) (s.rowFree.set iStar false) with
          | (rowFree2, none) =>
            some ({ base with rowFree := rowFree2, aRef := aRef1, bRef := bRef1 }, true)
          | (rowFree2, some (iRef2, bRef2)) =>
            some ({ base with
                      rowFree := rowFree2, iRef := some iRef2,
                      aRef := aRef1, bRef := bRef2 }, false)
        else if needNewA then
          match findMinCol M r (s.aCols ++ [aVec]) (s.bCols ++ [bVec]) bRef1
              (c + 1) (s.colFree.set jStar false) with
          | (colFree2, none) =>
            some ({ base with colFree := colFree2, aRef := aRef1, bRef := bRef1 }, true)
          | (colFree2, some (jRef2, aRef2)) =>
            some ({ base with
                      colFree := colFree2, jRef := jRef2,
                      aRef := aRef2, bRef := bRef1 }, false)
        else
          some ({ base with aRef := aRef1, bRef := bRef1 }, false)

/-- The `do { … } while (k < maxK)` loop; `k` increments in every body, so
fuel `maxK + 1` is never exhausted. -/
def acaPlusLoop (M : ℕ → ℕ → ℚ) (r c : ℕ) (eps : ℚ) :
    ℕ → PlusState → Option PlusState
  | 0, _ => none
  | fuel + 1, s =>
    match acaPlusBody M r c eps s with
    | none => none
    | some (s', true) => some s'
    | some (s', false) =>
      if s'.k < min r c then acaPlusLoop M r c eps fuel s' else some s'

/-- Initialisation of `compressAcaPlus` before its main loop: the first
reference column via `findCol`, then the reference row via `findMinRow`
(whose failure, `i_ref == -1`, is not checked by the code and leaves the
zero-initialised `bRef`). -/
def acaPlusInit (M : ℕ → ℕ → ℚ) (r c : ℕ) : Option PlusState :=
  match findCol (getColM M r) c (List.replicate c true) with
  | (_, none) => none
  | (colFree1, some (jRef, aRef0)) =>
    match findMinRow M c [] [] aRef0 (r + 1) (List.replicate r true) with
    | (rowFree1, none) =>
      some { rowFree := rowFree1, colFree := colFree1, aCols := [], bCols := [],
             pivRows := [], pivCols := [], iRef := none, jRef := jRef,
             aRef := aRef0, bRef := List.replicate c 0, k := 0, est := 0 }
    | (rowFree1, some (iRef1, bRef1)) =>
      some { rowFree := rowFree1, colFree := colFree1, aCols := [], bCols := [],
             pivRows := [], pivCols := [], iRef := some iRef1, jRef := jRef,
             aRef := aRef0, bRef := bRef1, k := 0, est := 0 }

def acaPlusRun (M : ℕ → ℕ → ℚ) (r c : ℕ) (eps : ℚ) : Option (Option PlusState) :=
  (acaPlusInit M r c).map (acaPlusLoop M r c eps (min r c + 1))

/-- `compressAcaPlus`: empty `Rk` when the block is entirely zero
(`findCol` fails); otherwise the factors accumulated by the loop.  The
outer `Option` is `none` where the C++ run aborts. -/
def compressAcaPlus (M : ℕ → ℕ → ℚ) (r c : ℕ) (eps : ℚ) : Option RkQ :=
  match acaPlusRun M r c eps with
  | none => some { a := none, b := none, method := Method.AcaPlus }
  | some none => none
  | some (some s) =>
    some { a := some s.aCols, b := some s.bCols, method := Method.AcaPlus }

/-! ## Standard (Hackbusch) admissibility, from admissibility.cpp

The bounding boxes are computed by `AxisAlignedBoundingBox` (outside this
core); their diameters and mutual distance enter `isAdmissible` only
through the final comparison, so they are parameters here.  The caching
through `admissibilityAlgoData_` is memory management with no effect on
the returned value. -/

/-- `StandardAdmissibilityCondition::isAdmissible`. -/
def isAdmissible (method : Method) (maxElementsPerBlock : ℕ) (eta : ℚ)
    (rowsSize colsSize : ℕ) (diamRows diamCols dist : ℚ) : Bool :=
  let isFullAlgo := ¬(method = Method.AcaPartial ∨ method = Method.AcaPlus)
  if isFullAlgo ∧ maxElementsPerBlock < rowsSize * colsSize then false
  else if rowsSize < 2 ∨ colsSize < 2 then false
  else decide (min diamRows diamCols ≤ eta * dist)

/-- The behaviour claimed for `isAdmissible`, word for word: the element
gate applies only when the configured method is `Svd` or `AcaFull`.
(Comparison definition; the code applies the gate for every method other
than `AcaPartial` / `AcaPlus`, hence also for `NoCompression`.) -/
def claimedAdmissible (method : Method) (maxElementsPerBlock : ℕ) (eta : ℚ)
    (rowsSize colsSize : ℕ) (diamRows diamCols dist : ℚ) : Bool :=
  if rowsSize < 2 ∨ colsSize < 2 then false
  else if (method = Method.Svd ∨ method = Method.AcaFull) ∧
      maxElementsPerBlock < rowsSize * colsSize then false
  else decide (min diamRows diamCols ≤ eta * dist)

/-! ## Kernel-assembly adapter (`ClusterAssemblyFunction`) -/

/-- The `hmat_block_t` classification hints. -/
inductive BlockType where
  | full | sparse | null
deriving DecidableEq

/-- `ClusterAssemblyFunction::getRow`: the user kernel is invoked unless
the block is sparse and the row is flagged null, in which case `result`
is left untouched (all call sites pass a zero-initialised vector). -/
def clusterGetRow (blockType : BlockType) (isNullRow : ℕ → Bool)
    (kernelRow : ℕ → List ℚ → List ℚ) (index : ℕ) (result : List ℚ) : List ℚ :=
  if blockType ≠ BlockType.sparse ∨ isNullRow index = false then kernelRow index result
  else result

/-! ## `compressMatrix` (SVD path) on raw column-major buffers -/

/-- `FullMatrix<T>`: a column-major buffer with explicit leading
dimension; entry `(i, j)` lives at linear offset `i + j·lda`. -/
structure FMat where
  rows : ℕ
  cols : ℕ
  lda : ℕ
  m : List ℚ
deriving DecidableEq

/-- `FullMatrix<T>::get(i, j) = m[i + j*lda]`. -/
def FMat.get (A : FMat) (i j : ℕ) : ℚ := A.m.getD (i + j * A.lda) 0

/-- The all-zero test at the top of `compressMatrix`: one `isZero` per
column, the column being read at offset `rows·col` (not `lda·col`). -/
def zeroMatrixCheck (A : FMat) : Bool :=
  (List.range A.cols).all (fun col => isZeroVec ((A.m.drop (A.rows * col)).take A.rows))

/-- The column copied by `compressAcaFull` for pivot column `j`:
`memcpy(…, m->m + j*m->rows, sizeof(dp_t)*rows)` — again offset
`j·rows`, not `j·lda`. -/
def pivotColumnSlice (A : FMat) (j : ℕ) : List ℚ :=
  (A.m.drop (A.rows * j)).take A.rows

/-- Output of `truncatedSvd` (LAPACK `gesvd`, an external collaborator):
`u` is `rows × min(rows,cols)` stored contiguously (`lda = rows`),
`sigma` the singular values, `vt` is `min(rows,cols) × cols` with
`lda = min(rows,cols)`. -/
structure SvdResult where
  u : List ℚ
  sigma : List ℚ
  vt : List ℚ

/-- `compressMatrix`: all-zero test, SVD, rank choice by `findK`
(defined in rk_matrix.cpp, outside this core, hence a parameter), then
`A := U[:, :k]` scaled by the singular values and `B := (Vᴴ[:k, :])ᵀ`.
Both zero-rank exits return the tag `NoCompression`. -/
def compressMatrix (A : FMat) (svd : FMat → SvdResult)
    (findK : List ℚ → ℕ → ℚ → ℕ) (eps : ℚ) : RkQ :=
  if zeroMatrixCheck A then { a := none, b := none, method := Method.NoCompression }
  else
    let res := svd A
    let maxK := min A.rows A.cols
    let k := findK res.sigma maxK eps
    if k = 0 then { a := none, b := none, method := Method.NoCompression }
    else
      let uTilde := (List.range k).map (fun col =>
        (List.range A.rows).map (fun row =>
          res.u.getD (row + col * A.rows) 0 * res.sigma.getD col 0))
      let vTilde := (List.range k).map (fun i =>
        (List.range A.cols).map (fun j => res.vt.getD (i + j * maxK) 0))
      { a := some uTilde, b := some vTilde, method := Method.Svd }

/-! ## Supporting lemmas about residuals and the estimate formula -/

lemma scaleQ_getD (alpha : ℚ) (v : List ℚ) (t : ℕ) :
    (scaleQ alpha v).getD t 0 = alpha * v.getD t 0 := by
  rcases Nat.lt_or_ge t v.length with hlt | hge
  · rw [List.getD_eq_getElem _ 0 (by simpa [scaleQ] using hlt), List.getD_eq_getElem _ 0 hlt]
    simp [scaleQ]
  · rw [List.getD_eq_default _ 0 (by simpa [scaleQ] using hge), List.getD_eq_default _ 0 hge]
    ring

lemma scaleQ_length (alpha : ℚ) (v : List ℚ) : (scaleQ alpha v).length = v.length := by
  simp [scaleQ]

lemma residRow_length {M : ℕ → ℕ → ℚ} {aCols bCols : List (List ℚ)} {c i : ℕ} :
    (residRow M aCols bCols c i).length = c := by
  simp [residRow]

lemma residCol_length {M : ℕ → ℕ → ℚ} {aCols bCols : List (List ℚ)} {r j : ℕ} :
    (residCol M aCols bCols r j).length = r := by
  simp [residCol]

lemma residRow_getD {M : ℕ → ℕ → ℚ} {aCols bCols : List (List ℚ)} {c i j : ℕ}
    (hj : j < c) : (residRow M aCols bCols c i).getD j 0 = resid M aCols bCols i j := by
  simp [residRow, getD_range_map, hj]

lemma residCol_getD {M : ℕ → ℕ → ℚ} {aCols bCols : List (List ℚ)} {r i j : ℕ}
    (hi : i < r) : (residCol M aCols bCols r j).getD i 0 = resid M aCols bCols i j := by
  simp [residCol, getD_range_map, hi]

/-- Appending one rank-one pair subtracts one more product from the
residual. -/
lemma resid_append {M : ℕ → ℕ → ℚ} {aCols bCols : List (List ℚ)} {a b : List ℚ}
    (hlen : aCols.length = bCols.length) (i j : ℕ) :
    resid M (aCols ++ [a]) (bCols ++ [b]) i j =
      resid M aCols bCols i j - a.getD i 0 * b.getD j 0 := by
  rw [resid, resid, List.zip_append hlen, List.map_append, List.sum_append]
  simp
  ring

lemma zip_append_singleton {A B : List (List ℚ)} {a b : List ℚ}
    (hlen : A.length = B.length) :
    (A ++ [a]).zip (B ++ [b]) = A.zip B ++ [(a, b)] := by
  rw [List.zip_append hlen]
  rfl

lemma specEstimateGo_append (a b : List ℚ) :
    ∀ (xs prior : List (List ℚ × List ℚ)) (est : ℚ),
      specEstimateGo (xs ++ [(a, b)]) prior est =
        specEstimateGo xs prior est +
          2 * (((prior ++ xs).map (fun q => dotQ a q.1 * dotQ b q.2)).sum) +
          normSqrQ a * normSqrQ b := by
  intro xs
  induction xs with
  | nil =>
    intro prior est
    simp [specEstimateGo]
  | cons p rest ih =>
    rcases p with ⟨x, y⟩
    intro prior est
    have h := ih (prior ++ [(x, y)])
      (est + 2 * ((prior.map (fun q => dotQ x q.1 * dotQ y q.2)).sum) +
        normSqrQ x * normSqrQ y)
    simp only [List.cons_append, specEstimateGo, List.append_eq] at h ⊢
    rw [h]
    congr 2
    rw [List.append_assoc]
    rfl

/-- The spec's estimate update, unrolled one accepted pair at a time. -/
lemma specEstimate_snoc (pairs : List (List ℚ × List ℚ)) (a b : List ℚ) :
    specEstimate (pairs ++ [(a, b)]) =
      specEstimate pairs +
        2 * ((pairs.map (fun q => dotQ a q.1 * dotQ b q.2)).sum) +
        normSqrQ a * normSqrQ b := by
  have := specEstimateGo_append a b pairs [] 0
  simpa [specEstimate] using this

/-- A duplicate-free list of naturals below `n` has at most `n` elements. -/
lemma nodup_bounded_length_le {l : List ℕ} {n : ℕ} (hn : l.Nodup)
    (hb : ∀ x ∈ l, x < n) : l.length ≤ n := by
  classical
  have hsub : l.toFinset ⊆ Finset.range n := by
    intro x hx
    exact Finset.mem_range.mpr (hb x (List.mem_toFinset.mp hx))
  have hcard := Finset.card_le_card hsub
  rwa [List.toFinset_card_of_nodup hn, Finset.card_range] at hcard

/-! ## The `compressAcaPartial` loop invariant -/

/-- Invariant of the `compressAcaPartial` state: shapes of all stored
vectors, duplicate-freeness and bounds of the accepted pivots, the fact
that the residual matrix vanishes on every accepted pivot row and column,
bounds on the current scan positions, and agreement of the running
estimate with the spec's formula. -/
structure PInv (M : ℕ → ℕ → ℚ) (r c : ℕ) (s : PartialState) : Prop where
  rowLen : s.rowFree.length = r
  colLen : s.colFree.length = c
  aLen : s.aCols.length = s.k
  bLen : s.bCols.length = s.k
  prLen : s.pivRows.length = s.k
  pcLen : s.pivCols.length = s.k
  aDims : ∀ a ∈ s.aCols, a.length = r
  bDims : ∀ b ∈ s.bCols, b.length = c
  nodupR : s.pivRows.Nodup
  nodupC : s.pivCols.Nodup
  prB : ∀ i ∈ s.pivRows, i < r
  pcB : ∀ j ∈ s.pivCols, j < c
  rowZero : ∀ i ∈ s.pivRows, ∀ j, j < c → resid M s.aCols s.bCols i j = 0
  colZero : ∀ j ∈ s.pivCols, ∀ i, i < r → resid M s.aCols s.bCols i j = 0
  curIB : s.curI < r
  curJB : s.curJ < c
  estEq : s.est = specEstimate (s.aCols.zip s.bCols)

lemma pBCol_eq {M : ℕ → ℕ → ℚ} {c : ℕ} {s : PartialState}
    (hb : ∀ b ∈ s.bCols, b.length = c) :
    pBCol M c s = residRow M s.aCols s.bCols c s.curI :=
  deflate_row_eq_residRow hb

lemma pACol_eq {M : ℕ → ℕ → ℚ} {r c : ℕ} {s : PartialState}
    (ha : ∀ a ∈ s.aCols, a.length = r) :
    pACol M r c s = residCol M s.aCols s.bCols r (pJ M c s) :=
  deflate_col_eq_residCol ha

lemma pJ_lt {M : ℕ → ℕ → ℚ} {r c : ℕ} {s : PartialState} (hinv : PInv M r c s) :
    pJ M c s < c := by
  rcases selectPivot_cases s.colFree (pBCol M c s) s.curJ with h | h
  · rw [pJ, h]; exact hinv.curJB
  · calc pJ M c s < min s.colFree.length (pBCol M c s).length := h
      _ ≤ (pBCol M c s).length := Nat.min_le_right _ _
      _ = c := by rw [pBCol_eq hinv.bDims, residRow_length]

/-- Preservation of the invariant by one `compressAcaPartial` iteration. -/
lemma acaPartialBody_inv {M : ℕ → ℕ → ℚ} {r c : ℕ} {eps : ℚ}
    {s s' : PartialState} {brk : Bool}
    (hinv : PInv M r c s) (h : acaPartialBody M r c eps s = some (s', brk)) :
    PInv M r c s' := by
  rw [acaPartialBody] at h
  by_cases hz : (pBCol M c s).getD (pJ M c s) 0 = 0
  · -- fallback branch: pick the least free row, skip the update
    rw [if_pos hz] at h
    rcases hf : firstFree (s.rowFree.set s.curI false) with _ | newI
    · rw [hf] at h; exact absurd h (by simp)
    · rw [hf] at h
      have hs' : s' = { s with
          rowFree := s.rowFree.set s.curI false, rpc := s.rpc + 1,
          curI := newI, curJ := pJ M c s } :=
        (congrArg Prod.fst (Option.some.inj h)).symm
      subst hs'
      refine ⟨?_, hinv.colLen, hinv.aLen, hinv.bLen, hinv.prLen, hinv.pcLen,
        hinv.aDims, hinv.bDims, hinv.nodupR, hinv.nodupC, hinv.prB, hinv.pcB,
        hinv.rowZero, hinv.colZero, ?_, pJ_lt hinv, hinv.estEq⟩
      · simpa using hinv.rowLen
      · have := firstFree_some_lt hf
        simpa [hinv.rowLen] using this
  · -- accepted pivot
    rw [if_neg hz] at h
    have hs' : s' = pAccept M r c s := (congrArg Prod.fst (Option.some.inj h)).symm
    subst hs'
    have hJc : pJ M c s < c := pJ_lt hinv
    have hab : s.aCols.length = s.bCols.length := hinv.aLen.trans hinv.bLen.symm
    -- entry values of the accepted pair
    have hpiv : (pBCol M c s).getD (pJ M c s) 0 =
        resid M s.aCols s.bCols s.curI (pJ M c s) := by
      rw [pBCol_eq hinv.bDims, residRow_getD hJc]
    have haColD : ∀ i, i < r →
        (pACol M r c s).getD i 0 = resid M s.aCols s.bCols i (pJ M c s) := by
      intro i hi
      rw [pACol_eq hinv.aDims, residCol_getD hi]
    have hbColD : ∀ j, j < c →
        (pBColS M c s).getD j 0 =
          (1 / (pBCol M c s).getD (pJ M c s) 0) * resid M s.aCols s.bCols s.curI j := by
      intro j hj
      rw [pBColS, scaleQ_getD, pBCol_eq hinv.bDims, residRow_getD hj]
    have haColLen : (pACol M r c s).length = r := by
      rw [pACol_eq hinv.aDims, residCol_length]
    have hbColLen : (pBColS M c s).length = c := by
      rw [pBColS, scaleQ_length, pBCol_eq hinv.bDims, residRow_length]
    have hcurI : s.curI ∉ s.pivRows := by
      intro hmem
      exact hz (hpiv.symm ▸ hinv.rowZero s.curI hmem (pJ M c s) hJc)
    have hJmem : pJ M c s ∉ s.pivCols := by
      intro hmem
      exact hz (hpiv.symm ▸ hinv.colZero (pJ M c s) hmem s.curI hinv.curIB)
    have hresid' : ∀ i j,
        resid M (s.aCols ++ [pACol M r c s]) (s.bCols ++ [pBColS M c s]) i j =
          resid M s.aCols s.bCols i j -
            (pACol M r c s).getD i 0 * (pBColS M c s).getD j 0 :=
      fun i j => resid_append hab i j
    refine ⟨?_, ?_, ?_, ?_, ?_, ?_, ?_, ?_, ?_, ?_, ?_, ?_, ?_, ?_, ?_, ?_, ?_⟩
    · simpa [pAccept] using hinv.rowLen
    · simpa [pAccept] using hinv.colLen
    · simp [pAccept, hinv.aLen]
    · simp [pAccept, hinv.bLen]
    · simp [pAccept, hinv.prLen]
    · simp [pAccept, hinv.pcLen]
    · -- dimensions of the stored a-columns
      intro a ha
      simp only [pAccept, List.mem_append, List.mem_singleton] at ha
      rcases ha with ha | rfl
      · exact hinv.aDims a ha
      · exact haColLen
    · intro b hb
      simp only [pAccept, List.mem_append, List.mem_singleton] at hb
      rcases hb with hb | rfl
      · exact hinv.bDims b hb
      · exact hbColLen
    · -- accepted pivot rows remain duplicate-free
      simp only [pAccept, List.nodup_append, List.nodup_singleton]
      exact ⟨hinv.nodupR, trivial, by
        intro a ha hb
        simp only [List.mem_singleton] at hb
        subst hb
        exact hcurI ha⟩
    · simp only [pAccept, List.nodup_append, List.nodup_singleton]
      exact ⟨hinv.nodupC, trivial, by
        intro a ha hb
        simp only [List.mem_singleton] at hb
        subst hb
        exact hJmem ha⟩
    · intro i hi
      simp only [pAccept, List.mem_append, List.mem_singleton] at hi
      rcases hi with hi | rfl
      · exact hinv.prB i hi
      · exact hinv.curIB
    · intro j hj
      simp only [pAccept, List.mem_append, List.mem_singleton] at hj
      rcases hj with hj | rfl
      · exact hinv.pcB j hj
      · exact hJc
    · -- residual vanishes on all accepted pivot rows
      intro i hi j hj
      simp only [pAccept] at hi ⊢
      simp only [List.mem_append, List.mem_singleton] at hi
      rw [hresid' i j]
      rcases hi with hi | rfl
      · rw [hinv.rowZero i hi j hj, haColD i (hinv.prB i hi),
          hinv.rowZero i hi (pJ M c s) hJc]
        ring
      · have hp : resid M s.aCols s.bCols s.curI (pJ M c s) ≠ 0 := by
          rw [← hpiv]; exact hz
        rw [haColD s.curI hinv.curIB, hbColD j hj, hpiv]
        field_simp
    · -- residual vanishes on all accepted pivot columns
      intro j hj i hi
      simp only [pAccept] at hj ⊢
      simp only [List.mem_append, List.mem_singleton] at hj
      rw [hresid' i j]
      rcases hj with hj | rfl
      · rw [hinv.colZero j hj i hi, hbColD j (hinv.pcB j hj),
          hinv.colZero j hj s.curI hinv.curIB]
        ring
      · have hp : resid M s.aCols s.bCols s.curI (pJ M c s) ≠ 0 := by
          rw [← hpiv]; exact hz
        rw [haColD i hi, hbColD (pJ M c s) hJc, hpiv]
        field_simp
    · -- new current row position stays in bounds
      simp only [pAccept]
      rcases selectPivot_cases (s.rowFree.set s.curI false) (pACol M r c s) s.curI
        with h1 | h1
      · rw [h1]; exact hinv.curIB
      · calc selectPivot (s.rowFree.set s.curI false) (pACol M r c s) s.curI
            < min (s.rowFree.set s.curI false).length (pACol M r c s).length := h1
          _ ≤ (pACol M r c s).length := Nat.min_le_right _ _
          _ = r := haColLen
    · simpa [pAccept] using hJc
    · -- the running estimate follows the spec's formula
      simp only [pAccept]
      rw [zip_append_singleton hab, specEstimate_snoc, hinv.estEq, pAbNorm]

lemma acaPartialLoop_inv {M : ℕ → ℕ → ℚ} {r c : ℕ} {eps : ℚ} :
    ∀ (fuel : ℕ) {s s' : PartialState}, PInv M r c s →
      acaPartialLoop M r c eps fuel s = some s' → PInv M r c s' := by
  intro fuel
  induction fuel with
  | zero => intro s s' _ h; exact absurd h (by simp [acaPartialLoop])
  | succ fuel ih =>
    intro s s' hinv h
    rw [acaPartialLoop] at h
    rcases hb : acaPartialBody M r c eps s with _ | ⟨s1, brk⟩
    · rw [hb] at h; exact absurd h (by simp)
    · rw [hb] at h
      have hinv1 : PInv M r c s1 := acaPartialBody_inv hinv hb
      match brk with
      | true =>
        simp only at h
        exact (Option.some.inj h) ▸ hinv1
      | false =>
        simp only at h
        by_cases hrpc : s1.rpc < min r c
        · rw [if_pos hrpc] at h
          exact ih hinv1 h
        · rw [if_neg hrpc] at h
          exact (Option.some.inj h) ▸ hinv1

lemma initPartialState_inv {M : ℕ → ℕ → ℚ} {r c : ℕ} (hr : 0 < r) (hc : 0 < c) :
    PInv M r c (initPartialState r c) := by
  refine ⟨?_, ?_, rfl, rfl, rfl, rfl, ?_, ?_, ?_, ?_, ?_, ?_, ?_, ?_, hr, hc, rfl⟩
  all_goals simp [initPartialState]

/-- Every successful `compressAcaPartial` run satisfies the invariant. -/
lemma acaPartialRun_inv {M : ℕ → ℕ → ℚ} {r c : ℕ} {eps : ℚ} {s : PartialState}
    (hr : 0 < r) (hc : 0 < c) (h : acaPartialRun M r c eps = some s) :
    PInv M r c s :=
  acaPartialLoop_inv _ (initPartialState_inv hr hc) h

/-! ## The `compressAcaPlus` loop invariant -/

/-- Accepting a cross pivot `(iStar, jStar)` with a non-zero residual
entry preserves duplicate-freeness, pivot bounds, and the vanishing of
the residual on all accepted pivot rows and columns.  The pushed pair is
characterised only through the products `a[i]·b[j]`, which covers both
scaling conventions used by ACA-partial and the two ACA+ branches. -/
lemma pivotPush {M : ℕ → ℕ → ℚ} {r c : ℕ} {A B : List (List ℚ)} {PR PC : List ℕ}
    {iStar jStar : ℕ} {a b : List ℚ}
    (hAB : A.length = B.length)
    (hnr : PR.Nodup) (hnc : PC.Nodup)
    (hprB : ∀ i ∈ PR, i < r) (hpcB : ∀ j ∈ PC, j < c)
    (hrz : ∀ i ∈ PR, ∀ j, j < c → resid M A B i j = 0)
    (hcz : ∀ j ∈ PC, ∀ i, i < r → resid M A B i j = 0)
    (hir : iStar < r) (hjc : jStar < c)
    (hp : resid M A B iStar jStar ≠ 0)
    (hprod : ∀ i, i < r → ∀ j, j < c →
      a.getD i 0 * b.getD j 0 =
        resid M A B i jStar * resid M A B iStar j / resid M A B iStar jStar) :
    (PR ++ [iStar]).Nodup ∧ (PC ++ [jStar]).Nodup ∧
    (∀ i ∈ PR ++ [iStar], i < r) ∧ (∀ j ∈ PC ++ [jStar], j < c) ∧
    (∀ i ∈ PR ++ [iStar], ∀ j, j < c → resid M (A ++ [a]) (B ++ [b]) i j = 0) ∧
    (∀ j ∈ PC ++ [jStar], ∀ i, i < r → resid M (A ++ [a]) (B ++ [b]) i j = 0) := by
  have hiPR : iStar ∉ PR := fun hmem => hp (hrz iStar hmem jStar hjc)
  have hjPC : jStar ∉ PC := fun hmem => hp (hcz jStar hmem iStar hir)
  refine ⟨?_, ?_, ?_, ?_, ?_, ?_⟩
  · simp only [List.nodup_append, List.nodup_singleton]
    exact ⟨hnr, trivial, by
      intro x hx hy
      simp only [List.mem_singleton] at hy
      subst hy
      exact hiPR hx⟩
  · simp only [List.nodup_append, List.nodup_singleton]
    exact ⟨hnc, trivial, by
      intro x hx hy
      simp only [List.mem_singleton] at hy
      subst hy
      exact hjPC hx⟩
  · intro i hi
    rcases List.mem_append.mp hi with hi | hi
    · exact hprB i hi
    · rw [List.mem_singleton.mp hi]; exact hir
  · intro j hj
    rcases List.mem_append.mp hj with hj | hj
    · exact hpcB j hj
    · rw [List.mem_singleton.mp hj]; exact hjc
  · intro i hi j hj
    rw [resid_append hAB]
    rcases List.mem_append.mp hi with hi | hi
    · rw [hrz i hi j hj, hprod i (hprB i hi) j hj, hrz i hi jStar hjc]
      ring
    · rw [List.mem_singleton.mp hi, hprod iStar hir j hj]
      field_simp
  · intro j hj i hi
    rw [resid_append hAB]
    rcases List.mem_append.mp hj with hj | hj
    · rw [hcz j hj i hi, hprod i hi j (hpcB j hj), hcz j hj iStar hir]
      ring
    · rw [List.mem_singleton.mp hj, hprod i hi jStar hjc]
      field_simp

lemma findMinRow_some {M : ℕ → ℕ → ℚ} {c : ℕ} {aCols bCols : List (List ℚ)}
    {aRef : List ℚ} :
    ∀ {fuel : ℕ} {free free' : List Bool} {i : ℕ} {row : List ℚ},
      findMinRow M c aCols bCols aRef fuel free = (free', some (i, row)) →
      row = deflate i bCols aCols (getRowM M c i) := by
  intro fuel
  induction fuel with
  | zero => intro free free' i row h; exact absurd h (by simp [findMinRow])
  | succ fuel ih =>
    intro free free' i row h
    rw [findMinRow] at h
    rcases hmin : argminFree free aRef with _ | i0
    · rw [hmin] at h; exact absurd h (by simp)
    · rw [hmin] at h
      simp only at h
      by_cases hzv : isZeroVec (deflate i0 bCols aCols (getRowM M c i0))
      · rw [if_pos hzv] at h
        exact ih h
      · rw [if_neg hzv] at h
        have := Prod.mk.injEq .. ▸ h
        have h2 := (Prod.mk.inj h).2
        have h3 := Option.some.inj h2
        rw [← (Prod.mk.inj h3).1, (Prod.mk.inj h3).2]

lemma findMinCol_some {M : ℕ → ℕ → ℚ} {r : ℕ} {aCols bCols : List (List ℚ)}
    {bRef : List ℚ} :
    ∀ {fuel : ℕ} {free free' : List Bool} {j : ℕ} {col : List ℚ},
      findMinCol M r aCols bCols bRef fuel free = (free', some (j, col)) →
      col = deflate j aCols bCols (getColM M r j) := by
  intro fuel
  induction fuel with
  | zero => intro free free' j col h; exact absurd h (by simp [findMinCol])
  | succ fuel ih =>
    intro free free' j col h
    rw [findMinCol] at h
    rcases hmin : argminFree free bRef with _ | j0
    · rw [hmin] at h; exact absurd h (by simp)
    · rw [hmin] at h
      simp only at h
      by_cases hzv : isZeroVec (deflate j0 aCols bCols (getColM M r j0))
      · rw [if_pos hzv] at h
        exact ih h
      · rw [if_neg hzv] at h
        have h3 := Option.some.inj (Prod.mk.inj h).2
        rw [← (Prod.mk.inj h3).1, (Prod.mk.inj h3).2]

lemma findColGo_some {getCol : ℕ → List ℚ} :
    ∀ {js : List ℕ} {free free' : List Bool} {j : ℕ} {col : List ℚ},
      findColGo getCol js free = (free', some (j, col)) → col = getCol j := by
  intro js
  induction js with
  | nil => intro free free' j col h; exact absurd h (by simp [findColGo])
  | cons j0 js ih =>
    intro free free' j col h
    rw [findColGo] at h
    by_cases hfr : free.getD j0 false
    · rw [if_pos hfr] at h
      by_cases hzv : isZeroVec (getCol j0)
      · rw [if_pos hzv] at h
        exact ih h
      · rw [if_neg hzv] at h
        have h3 := Option.some.inj (Prod.mk.inj h).2
        rw [← (Prod.mk.inj h3).1, (Prod.mk.inj h3).2]
    · rw [if_neg hfr] at h
      exact ih h

lemma refreshColLoop_some {M : ℕ → ℕ → ℚ} {r c : ℕ} {A B : List (List ℚ)} :
    ∀ {fuel : ℕ} {free free' : List Bool} {j : ℕ} {colD : List ℚ},
      refreshColLoop M r c A B fuel free = (free', some (j, colD)) →
      colD = deflate j A B (getColM M r j) := by
  intro fuel
  induction fuel with
  | zero => intro free free' j colD h; exact absurd h (by simp [refreshColLoop])
  | succ fuel ih =>
    intro free free' j colD h
    rw [refreshColLoop] at h
    rcases hfc : findCol (getColM M r) c free with ⟨free1, o⟩
    rcases o with _ | ⟨j1, col1⟩
    · rw [hfc] at h; exact absurd h (by simp)
    · rw [hfc] at h
      simp only at h
      have hcol1 : col1 = getColM M r j1 := findColGo_some hfc
      by_cases hzv : isZeroVec (deflate j1 A B col1)
      · rw [if_pos hzv] at h
        exact ih h
      · rw [if_neg hzv] at h
        have h3 := Option.some.inj (Prod.mk.inj h).2
        rw [← (Prod.mk.inj h3).1, ← (Prod.mk.inj h3).2, hcol1]

/-- Invariant of the `compressAcaPlus` state. -/
structure QInv (M : ℕ → ℕ → ℚ) (r c : ℕ) (s : PlusState) : Prop where
  aLen : s.aCols.length = s.k
  bLen : s.bCols.length = s.k
  prLen : s.pivRows.length = s.k
  pcLen : s.pivCols.length = s.k
  aDims : ∀ a ∈ s.aCols, a.length = r
  bDims : ∀ b ∈ s.bCols, b.length = c
  nodupR : s.pivRows.Nodup
  nodupC : s.pivCols.Nodup
  prB : ∀ i ∈ s.pivRows, i < r
  pcB : ∀ j ∈ s.pivCols, j < c
  rowZero : ∀ i ∈ s.pivRows, ∀ j, j < c → resid M s.aCols s.bCols i j = 0
  colZero : ∀ j ∈ s.pivCols, ∀ i, i < r → resid M s.aCols s.bCols i j = 0
  aRefLen : s.aRef.length = r
  bRefLen : s.bRef.length = c
  estEq : s.est = specEstimate (s.aCols.zip s.bCols)

/-- `QInv` does not involve the free lists or the reference indices, so a
state differing from an invariant state only in those fields and in the
reference vectors (of the right lengths) again satisfies it. -/
lemma QInv_update {M : ℕ → ℕ → ℚ} {r c : ℕ} {s0 : PlusState}
    (h : QInv M r c s0) {rf cf : List Bool} {io : Option ℕ} {j0 : ℕ}
    {aR bR : List ℚ} (haR : aR.length = r) (hbR : bR.length = c) :
    QInv M r c { s0 with
                   rowFree := rf, colFree := cf, iRef := io, jRef := j0,
                   aRef := aR, bRef := bR } :=
  ⟨h.aLen, h.bLen, h.prLen, h.pcLen, h.aDims, h.bDims, h.nodupR, h.nodupC,
    h.prB, h.pcB, h.rowZero, h.colZero, haR, hbR, h.estEq⟩

/-- Facts delivered by a successful ACA+ pivot selection: in-bounds
pivot, right-sized vectors, non-zero residual pivot entry, and the
product characterisation of the pushed pair. -/
lemma qSel_facts {M : ℕ → ℕ → ℚ} {r c : ℕ} {s : PlusState}
    (hr : 0 < r) (hc : 0 < c) (hinv : QInv M r c s)
    {iStar jStar : ℕ} {aVec bVec : List ℚ}
    (h : qSel M r c s = some (iStar, jStar, aVec, bVec)) :
    iStar < r ∧ jStar < c ∧ aVec.length = r ∧ bVec.length = c ∧
    resid M s.aCols s.bCols iStar jStar ≠ 0 ∧
    (∀ i, i < r → ∀ j, j < c →
      aVec.getD i 0 * bVec.getD j 0 =
        resid M s.aCols s.bCols i jStar * resid M s.aCols s.bCols iStar j /
          resid M s.aCols s.bCols iStar jStar) := by
  rw [qSel] at h
  by_cases hbr : squaredNorm (s.bRef.getD (absMaxIdx s.bRef) 0) <
      squaredNorm (s.aRef.getD (absMaxIdx s.aRef) 0)
  · -- branch 1: i_star from aRef, j_star from the deflated row
    rw [if_pos hbr] at h
    have hbv : qBVec1 M c s = residRow M s.aCols s.bCols c (absMaxIdx s.aRef) :=
      deflate_row_eq_residRow hinv.bDims
    by_cases hz : (qBVec1 M c s).getD (absMaxIdx (qBVec1 M c s)) 0 = 0
    · rw [if_pos hz] at h; exact absurd h (by simp)
    · rw [if_neg hz] at h
      obtain ⟨rfl, rfl, rfl, rfl⟩ :
          iStar = absMaxIdx s.aRef ∧ jStar = absMaxIdx (qBVec1 M c s) ∧
          aVec = qAVec1 M r c s ∧ bVec = qBVec1 M c s := by
        have h' := Option.some.inj h
        refine ⟨?_, ?_, ?_, ?_⟩ <;> simp [Prod.ext_iff] at h' <;> tauto
      have hir : absMaxIdx s.aRef < r := by
        have hne : s.aRef ≠ [] := List.length_pos.mp (by rw [hinv.aRefLen]; exact hr)
        have := absMaxIdx_lt_length hne
        rwa [hinv.aRefLen] at this
      have hjc : absMaxIdx (qBVec1 M c s) < c := by
        have hlen : (qBVec1 M c s).length = c := by rw [hbv, residRow_length]
        have hne : qBVec1 M c s ≠ [] := List.length_pos.mp (by rw [hlen]; exact hc)
        have := absMaxIdx_lt_length hne
        rwa [hlen] at this
      have hpiv : (qBVec1 M c s).getD (absMaxIdx (qBVec1 M c s)) 0 =
          resid M s.aCols s.bCols (absMaxIdx s.aRef) (absMaxIdx (qBVec1 M c s)) := by
        rw [hbv]
        exact residRow_getD (by rwa [← hbv])
      have hav : qAVec1 M r c s =
          scaleQ (1 / (qBVec1 M c s).getD (absMaxIdx (qBVec1 M c s)) 0)
            (residCol M s.aCols s.bCols r (absMaxIdx (qBVec1 M c s))) := by
        rw [qAVec1, deflate_col_eq_residCol hinv.aDims]
      refine ⟨hir, hjc, ?_, ?_, by rwa [hpiv] at hz, ?_⟩
      · rw [hav, scaleQ_length, residCol_length]
      · rw [hbv, residRow_length]
      · intro i hi j hj
        rw [hav, scaleQ_getD, residCol_getD hi, hpiv, hbv, residRow_getD hj]
        ring
  · -- branch 2: j_star from bRef, i_star from the deflated column
    rw [if_neg hbr] at h
    have hav : qAVec2 M r s = residCol M s.aCols s.bCols r (absMaxIdx s.bRef) :=
      deflate_col_eq_residCol hinv.aDims
    by_cases hz : (qAVec2 M r s).getD (absMaxIdx (qAVec2 M r s)) 0 = 0
    · rw [if_pos hz] at h; exact absurd h (by simp)
    · rw [if_neg hz] at h
      obtain ⟨rfl, rfl, rfl, rfl⟩ :
          iStar = absMaxIdx (qAVec2 M r s) ∧ jStar = absMaxIdx s.bRef ∧
          aVec = qAVec2 M r s ∧ bVec = qBVec2 M r c s := by
        have h' := Option.some.inj h
        refine ⟨?_, ?_, ?_, ?_⟩ <;> simp [Prod.ext_iff] at h' <;> tauto
      have hjc : absMaxIdx s.bRef < c := by
        have hne : s.bRef ≠ [] := List.length_pos.mp (by rw [hinv.bRefLen]; exact hc)
        have := absMaxIdx_lt_length hne
        rwa [hinv.bRefLen] at this
      have hir : absMaxIdx (qAVec2 M r s) < r := by
        have hlen : (qAVec2 M r s).length = r := by rw [hav, residCol_length]
        have hne : qAVec2 M r s ≠ [] := List.length_pos.mp (by rw [hlen]; exact hr)
        have := absMaxIdx_lt_length hne
        rwa [hlen] at this
      have hpiv : (qAVec2 M r s).getD (absMaxIdx (qAVec2 M r s)) 0 =
          resid M s.aCols s.bCols (absMaxIdx (qAVec2 M r s)) (absMaxIdx s.bRef) := by
        rw [hav]
        exact residCol_getD (by rwa [← hav])
      have hbvv : qBVec2 M r c s =
          scaleQ (1 / (qAVec2 M r s).getD (absMaxIdx (qAVec2 M r s)) 0)
            (residRow M s.aCols s.bCols c (absMaxIdx (qAVec2 M r s))) := by
        rw [qBVec2, deflate_row_eq_residRow hinv.bDims]
      refine ⟨hir, hjc, ?_, ?_, by rwa [hpiv] at hz, ?_⟩
      · rw [hav, residCol_length]
      · rw [hbvv, scaleQ_length, residRow_length]
      · intro i hi j hj
        rw [hbvv, scaleQ_getD, residRow_getD hj, hpiv, hav, residCol_getD hi]
        ring

/-- The state after pushing an accepted ACA+ pair satisfies the pair part
of the invariant. -/
lemma qBase_inv {M : ℕ → ℕ → ℚ} {r c : ℕ} {s : PlusState}
    (hr : 0 < r) (hc : 0 < c) (hinv : QInv M r c s)
    {iStar jStar : ℕ} {aVec bVec : List ℚ}
    (hsel : qSel M r c s = some (iStar, jStar, aVec, bVec)) :
    QInv M r c (qBase s iStar jStar aVec bVec) := by
  obtain ⟨hir, hjc, haL, hbL, hp, hprod⟩ := qSel_facts hr hc hinv hsel
  have hAB : s.aCols.length = s.bCols.length := hinv.aLen.trans hinv.bLen.symm
  obtain ⟨hn1, hn2, hb1, hb2, hz1, hz2⟩ :=
    pivotPush hAB hinv.nodupR hinv.nodupC hinv.prB hinv.pcB hinv.rowZero
      hinv.colZero hir hjc hp hprod
  refine ⟨?_, ?_, ?_, ?_, ?_, ?_, hn1, hn2, hb1, hb2, hz1, hz2, ?_, ?_, ?_⟩
  · simp [qBase, hinv.aLen]
  · simp [qBase, hinv.bLen]
  · simp [qBase, hinv.prLen]
  · simp [qBase, hinv.pcLen]
  · intro a ha
    simp only [qBase, List.mem_append, List.mem_singleton] at ha
    rcases ha with ha | rfl
    · exact hinv.aDims a ha
    · exact haL
  · intro b hb
    simp only [qBase, List.mem_append, List.mem_singleton] at hb
    rcases hb with hb | rfl
    · exact hinv.bDims b hb
    · exact hbL
  · exact hinv.aRefLen
  · exact hinv.bRefLen
  · simp only [qBase]
    rw [zip_append_singleton hAB, specEstimate_snoc, hinv.estEq]

/-- Preservation of the invariant by one `compressAcaPlus` iteration. -/
lemma acaPlusBody_inv {M : ℕ → ℕ → ℚ} {r c : ℕ} {eps : ℚ}
    {s s' : PlusState} {brk : Bool}
    (hr : 0 < r) (hc : 0 < c) (hinv : QInv M r c s)
    (h : acaPlusBody M r c eps s = some (s', brk)) :
    QInv M r c s' := by
  rw [acaPlusBody] at h
  rcases hsel : qSel M r c s with _ | ⟨iStar, jStar, aVec, bVec⟩
  · rw [hsel] at h; exact absurd h (by simp)
  rw [hsel] at h
  simp only at h
  obtain ⟨hir, hjc, haL, hbL, hp, hprod⟩ := qSel_facts hr hc hinv hsel
  have hbase : QInv M r c (qBase s iStar jStar aVec bVec) := qBase_inv hr hc hinv hsel
  have haDims' : ∀ x ∈ s.aCols ++ [aVec], x.length = r := by
    intro x hx
    rcases List.mem_append.mp hx with hx | hx
    · exact hinv.aDims x hx
    · rw [List.mem_singleton.mp hx]; exact haL
  have hbDims' : ∀ x ∈ s.bCols ++ [bVec], x.length = c := by
    intro x hx
    rcases List.mem_append.mp hx with hx | hx
    · exact hinv.bDims x hx
    · rw [List.mem_singleton.mp hx]; exact hbL
  have haRef1L : (axpyQ (-(bVec.getD s.jRef 0)) aVec s.aRef).length = r := by
    rw [axpyQ_length (haL.trans hinv.aRefLen.symm)]; exact hinv.aRefLen
  by_cases hstop : normSqrQ aVec * normSqrQ bVec <
      eps * eps * (qBase s iStar jStar aVec bVec).est
  · rw [if_pos hstop] at h
    exact (Prod.mk.inj (Option.some.inj h)).1 ▸ hbase
  rw [if_neg hstop] at h
  rcases hiref : s.iRef with _ | ir
  · rw [hiref] at h; exact absurd h (by simp)
  rw [hiref] at h
  simp only at h
  have hbRef1L : (axpyQ (-(aVec.getD ir 0)) bVec s.bRef).length = c := by
    rw [axpyQ_length (hbL.trans hinv.bRefLen.symm)]; exact hinv.bRefLen
  by_cases hnn : (isZeroVec (axpyQ (-(bVec.getD s.jRef 0)) aVec s.aRef) ∨ jStar = s.jRef) ∧
      (isZeroVec (axpyQ (-(aVec.getD ir 0)) bVec s.bRef) ∨ iStar = ir)
  · rw [if_pos hnn] at h
    rcases hrc : refreshColLoop M r c (s.aCols ++ [aVec]) (s.bCols ++ [bVec])
        (c + 1) (s.colFree.set jStar false) with ⟨colFree2, o2⟩
    rw [hrc] at h
    rcases o2 with _ | ⟨jRef2, aRef2⟩
    · simp only at h
      exact (Prod.mk.inj (Option.some.inj h)).1 ▸
        QInv_update hbase haRef1L hbRef1L
    · simp only at h
      have haRef2L : aRef2.length = r := by
        rw [refreshColLoop_some hrc,
          deflate_length _ _ _ (by intro d hd; rw [haDims' d hd]; simp [getColM])]
        simp [getColM]
      rcases hmr : findMinRow M c (s.aCols ++ [aVec]) (s.bCols ++ [bVec]) aRef2
          (r + 1) (s.rowFree.set iStar false) with ⟨rowFree2, o3⟩
      rw [hmr] at h
      rcases o3 with _ | ⟨iRef2, bRef2⟩
      · simp only at h
        exact (Prod.mk.inj (Option.some.inj h)).1 ▸
          QInv_update hbase haRef2L hbRef1L
      · simp only at h
        have hbRef2L : bRef2.length = c := by
          rw [findMinRow_some hmr,
            deflate_length _ _ _ (by intro d hd; rw [hbDims' d hd]; simp [getRowM])]
          simp [getRowM]
        exact (Prod.mk.inj (Option.some.inj h)).1 ▸
          QInv_update hbase haRef2L hbRef2L
  rw [if_neg hnn] at h
  by_cases hnb : isZeroVec (axpyQ (-(aVec.getD ir 0)) bVec s.bRef) ∨ iStar = ir
  · rw [if_pos hnb] at h
    rcases hmr : findMinRow M c (s.aCols ++ [aVec]) (s.bCols ++ [bVec])
        (axpyQ (-(bVec.getD s.jRef 0)) aVec s.aRef)
        (r + 1) (s.rowFree.set iStar false) with ⟨rowFree2, o3⟩
    rw [hmr] at h
    rcases o3 with _ | ⟨iRef2, bRef2⟩
    · simp only at h
      exact (Prod.mk.inj (Option.some.inj h)).1 ▸
        QInv_update hbase haRef1L hbRef1L
    · simp only at h
      have hbRef2L : bRef2.length = c := by
        rw [findMinRow_some hmr,
          deflate_length _ _ _ (by intro d hd; rw [hbDims' d hd]; simp [getRowM])]
        simp [getRowM]
      exact (Prod.mk.inj (Option.some.inj h)).1 ▸
        QInv_update hbase haRef1L hbRef2L
  rw [if_neg hnb] at h
  by_cases hna : isZeroVec (axpyQ (-(bVec.getD s.jRef 0)) aVec s.aRef) ∨ jStar = s.jRef
  · rw [if_pos hna] at h
    rcases hmc : findMinCol M r (s.aCols ++ [aVec]) (s.bCols ++ [bVec])
        (axpyQ (-(aVec.getD ir 0)) bVec s.bRef)
        (c + 1) (s.colFree.set jStar false) with ⟨colFree2, o3⟩
    rw [hmc] at h
    rcases o3 with _ | ⟨jRef2, aRef2⟩
    · simp only at h
      exact (Prod.mk.inj (Option.some.inj h)).1 ▸
        QInv_update hbase haRef1L hbRef1L
    · simp only at h
      have haRef2L : aRef2.length = r := by
        rw [findMinCol_some hmc,
          deflate_length _ _ _ (by intro d hd; rw [haDims' d hd]; simp [getColM])]
        simp [getColM]
      exact (Prod.mk.inj (Option.some.inj h)).1 ▸
        QInv_update hbase haRef2L hbRef1L
  rw [if_neg hna] at h
  exact (Prod.mk.inj (Option.some.inj h)).1 ▸
    QInv_update hbase haRef1L hbRef1L

lemma acaPlusLoop_inv {M : ℕ → ℕ → ℚ} {r c : ℕ} {eps : ℚ}
    (hr : 0 < r) (hc : 0 < c) :
    ∀ (fuel : ℕ) {s s' : PlusState}, QInv M r c s →
      acaPlusLoop M r c eps fuel s = some s' → QInv M r c s' := by
  intro fuel
  induction fuel with
  | zero => intro s s' _ h; exact absurd h (by simp [acaPlusLoop])
  | succ fuel ih =>
    intro s s' hinv h
    rw [acaPlusLoop] at h
    rcases hb : acaPlusBody M r c eps s with _ | ⟨s1, brk⟩
    · rw [hb] at h; exact absurd h (by simp)
    · rw [hb] at h
      have hinv1 : QInv M r c s1 := acaPlusBody_inv hr hc hinv hb
      match brk with
      | true =>
        simp only at h
        exact (Option.some.inj h) ▸ hinv1
      | false =>
        simp only at h
        by_cases hk : s1.k < min r c
        · rw [if_pos hk] at h
          exact ih hinv1 h
        · rw [if_neg hk] at h
          exact (Option.some.inj h) ▸ hinv1

/-- The state produced by `acaPlusInit` satisfies the invariant. -/
lemma acaPlusInit_inv {M : ℕ → ℕ → ℚ} {r c : ℕ} {s : PlusState}
    (h : acaPlusInit M r c = some s) : QInv M r c s := by
  rw [acaPlusInit] at h
  rcases hfc : findCol (getColM M r) c (List.replicate c true) with ⟨colFree1, o1⟩
  rw [hfc] at h
  rcases o1 with _ | ⟨jRef, aRef0⟩
  · exact absurd h (by simp)
  simp only at h
  have haRef0 : aRef0 = getColM M r jRef := findColGo_some hfc
  have haRef0L : aRef0.length = r := by rw [haRef0]; simp [getColM]
  rcases hmr : findMinRow M c [] [] aRef0 (r + 1) (List.replicate r true)
      with ⟨rowFree1, o2⟩
  rw [hmr] at h
  rcases o2 with _ | ⟨iRef1, bRef1⟩
  · simp only at h
    refine (Option.some.inj h) ▸
      ⟨rfl, rfl, rfl, rfl, ?_, ?_, ?_, ?_, ?_, ?_, ?_, ?_, haRef0L, ?_, rfl⟩
    all_goals simp
  · simp only at h
    have hbRef1L : bRef1.length = c := by
      rw [findMinRow_some hmr]
      simp [deflate, getRowM]
    refine (Option.some.inj h) ▸
      ⟨rfl, rfl, rfl, rfl, ?_, ?_, ?_, ?_, ?_, ?_, ?_, ?_, haRef0L, hbRef1L, rfl⟩
    all_goals simp

/-- Every successful `compressAcaPlus` run satisfies the invariant. -/
lemma acaPlusRun_inv {M : ℕ → ℕ → ℚ} {r c : ℕ} {eps : ℚ} {s : PlusState}
    (hr : 0 < r) (hc : 0 < c) (h : acaPlusRun M r c eps = some (some s)) :
    QInv M r c s := by
  rw [acaPlusRun] at h
  rcases hi : acaPlusInit M r c with _ | s0
  · rw [hi] at h; exact absurd h (by simp)
  · rw [hi] at h
    simp only [Option.map_some'] at h
    exact acaPlusLoop_inv hr hc _ (acaPlusInit_inv hi) (Option.some.inj h)

/-! ## `compressAcaFull` invariants -/

/-- Shape invariant of the `compressAcaFull` buffers. -/
structure FInv (r c : ℕ) (s : FullState) : Prop where
  abLen : s.tmpA.length = s.tmpB.length
  aDims : ∀ a ∈ s.tmpA, a.length = r
  bDims : ∀ b ∈ s.tmpB, b.length = c

lemma acaFullBody_inv {r c : ℕ} {eps : ℚ} {s s' : FullState} {brk : Bool}
    (h : acaFullBody r c eps s = (s', brk)) (hinv : FInv r c s) :
    FInv r c s' ∧ s'.tmpA.length ≤ s.tmpA.length + 1 := by
  rw [acaFullBody] at h
  by_cases hz : squaredNorm (s.R (findMax s.R r c).1 (findMax s.R r c).2) = 0
  · rw [if_pos hz] at h
    have := (Prod.mk.inj h).1
    exact this ▸ ⟨hinv, Nat.le_succ _⟩
  · rw [if_neg hz] at h
    have hs' := (Prod.mk.inj h).1
    subst hs'
    refine ⟨⟨by simp [hinv.abLen], ?_, ?_⟩, by simp⟩
    · intro a ha
      simp only [List.mem_append, List.mem_singleton] at ha
      rcases ha with ha | rfl
      · exact hinv.aDims a ha
      · simp [getColM]
    · intro b hb
      simp only [List.mem_append, List.mem_singleton] at hb
      rcases hb with hb | rfl
      · exact hinv.bDims b hb
      · simp

lemma acaFullLoop_inv {r c : ℕ} {eps : ℚ} :
    ∀ (fuel : ℕ) (s : FullState), FInv r c s →
      FInv r c (acaFullLoop r c eps fuel s) ∧
      (acaFullLoop r c eps fuel s).tmpA.length ≤ s.tmpA.length + fuel := by
  intro fuel
  induction fuel with
  | zero => intro s hinv; exact ⟨hinv, by simp [acaFullLoop]⟩
  | succ fuel ih =>
    intro s hinv
    rcases hb : acaFullBody r c eps s with ⟨s1, brk⟩
    obtain ⟨hinv1, hlen1⟩ := acaFullBody_inv hb hinv
    rw [acaFullLoop, hb]
    cases brk with
    | true =>
      show FInv r c s1 ∧ s1.tmpA.length ≤ s.tmpA.length + (fuel + 1)
      exact ⟨hinv1, by omega⟩
    | false =>
      show FInv r c (acaFullLoop r c eps fuel s1) ∧
        (acaFullLoop r c eps fuel s1).tmpA.length ≤ s.tmpA.length + (fuel + 1)
      obtain ⟨hinv2, hlen2⟩ := ih s1 hinv1
      exact ⟨hinv2, by omega⟩

lemma acaFullRun_inv {M : ℕ → ℕ → ℚ} {r c : ℕ} {eps : ℚ} {kParam : ℕ} :
    FInv r c (acaFullRun M r c eps kParam) ∧
      (acaFullRun M r c eps kParam).tmpA.length ≤ acaFullMaxK r c kParam := by
  have := @acaFullLoop_inv r c eps (acaFullMaxK r c kParam)
    { R := M, tmpA := [], tmpB := [], est := 0 }
    ⟨rfl, by simp, by simp⟩
  exact ⟨this.1, by simpa [acaFullRun] using this.2⟩

/-! ## Behaviour on the all-zero block -/

/-- `rowFree` after the first `t` fallback rounds of `compressAcaPartial`
on a zero block: the first `t` rows are used, the rest free. -/
def freePrefix (r t : ℕ) : List Bool :=
  (List.range r).map (fun i => decide (t ≤ i))

lemma freePrefix_zero (r : ℕ) : freePrefix r 0 = List.replicate r true := by
  refine List.eq_replicate_iff.mpr ⟨by simp [freePrefix], ?_⟩
  intro b hb
  rcases List.mem_map.mp hb with ⟨i, _, rfl⟩
  simp

lemma freePrefix_length (r t : ℕ) : (freePrefix r t).length = r := by
  simp [freePrefix]

lemma freePrefix_set (r t : ℕ) :
    (freePrefix r t).set t false = freePrefix r (t + 1) := by
  apply List.ext_getElem
  · simp [freePrefix]
  · intro i h1 h2
    have hi : i < r := by simpa [freePrefix] using h2
    rw [List.getElem_set]
    by_cases hit : t = i
    · subst hit
      simp [freePrefix]
    · simp only [if_neg hit]
      simp only [freePrefix, List.getElem_map, List.getElem_range]
      rw [decide_eq_decide]
      omega

lemma firstFree_of : ∀ {l : List Bool} {i : ℕ}, i < l.length →
    l.getD i false = true → (∀ t, t < i → l.getD t false = false) →
    firstFree l = some i := by
  intro l
  induction l with
  | nil => intro i h _ _; exact absurd h (by simp)
  | cons b bs ih =>
    intro i hlen hget hlt
    match i with
    | 0 =>
      have hb : b = true := by simpa using hget
      simp [firstFree, hb]
    | i + 1 =>
      have hb : b = false := by simpa using hlt 0 (Nat.succ_pos _)
      have := ih (by simpa using Nat.lt_of_succ_lt_succ hlen) (by simpa using hget)
        (fun t ht => by simpa using hlt (t + 1) (Nat.succ_lt_succ ht))
      simp [firstFree, hb, this]

lemma firstFree_freePrefix (r t : ℕ) :
    firstFree (freePrefix r t) = if t < r then some t else none := by
  by_cases htr : t < r
  · rw [if_pos htr]
    apply firstFree_of
    · simpa [freePrefix_length] using htr
    · have : t < (freePrefix r t).length := by simpa [freePrefix_length] using htr
      rw [List.getD_eq_getElem _ _ this]
      simp [freePrefix, List.getElem_map, htr]
    · intro u hu
      have hur : u < r := lt_trans hu htr
      have : u < (freePrefix r t).length := by simpa [freePrefix_length] using hur
      rw [List.getD_eq_getElem _ _ this]
      simp only [freePrefix, List.getElem_map, List.getElem_range]
      simpa using Nat.not_le.mpr hu
  · rw [if_neg htr]
    apply firstFree_none_iff.mpr
    intro b hb
    rcases List.mem_map.mp hb with ⟨i, hi, rfl⟩
    have : i < r := List.mem_range.mp hi
    simpa using by omega

/-- On an all-zero candidate vector, the strict argmax scan never updates
the running pivot index. -/
lemma selectPivotGo_zero : ∀ (l : List (Bool × ℚ)) (j best : ℕ),
    (∀ p ∈ l, p.2 = 0) → selectPivotGo l j best 0 = best := by
  intro l
  induction l with
  | nil => intro j best _; rfl
  | cons p rest ih =>
    rcases p with ⟨fr, x⟩
    intro j best hz
    have hx : x = 0 := hz (fr, x) (List.mem_cons_self _ _)
    subst hx
    rw [selectPivotGo, if_neg (by simp)]
    exact ih _ _ (fun q hq => hz q (List.mem_cons_of_mem _ hq))

lemma selectPivot_zero {free : List Bool} {v : List ℚ} {init : ℕ}
    (hz : ∀ x ∈ v, x = 0) : selectPivot free v init = init := by
  apply selectPivotGo_zero
  rintro ⟨fr, x⟩ hp
  exact hz x (List.of_mem_zip hp).2

/-- The `compressAcaPartial` state after `t` fallback rounds on the
all-zero block. -/
def zeroPState (r c t : ℕ) : PartialState :=
  { rowFree := freePrefix r t, colFree := List.replicate c true,
    aCols := [], bCols := [], pivRows := [], pivCols := [],
    curI := t, curJ := 0, k := 0, rpc := t, est := 0 }

lemma deflate_nil_dirs {idx : ℕ} {coefs : List (List ℚ)} {v : List ℚ} :
    deflate idx [] coefs v = v := by
  cases coefs <;> rfl

lemma getRowM_zero {M : ℕ → ℕ → ℚ} (hM : ∀ i j, M i j = 0) {c i : ℕ} :
    ∀ x ∈ getRowM M c i, x = 0 := by
  intro x hx
  rcases List.mem_map.mp hx with ⟨j, _, rfl⟩
  exact hM i j

lemma getColM_zero {M : ℕ → ℕ → ℚ} (hM : ∀ i j, M i j = 0) {r j : ℕ} :
    ∀ x ∈ getColM M r j, x = 0 := by
  intro x hx
  rcases List.mem_map.mp hx with ⟨i, _, rfl⟩
  exact hM i j

lemma acaPartialBody_zeroM {M : ℕ → ℕ → ℚ} (hM : ∀ i j, M i j = 0) (r c t : ℕ)
    (eps : ℚ) :
    acaPartialBody M r c eps (zeroPState r c t) =
      if t + 1 < r then some (zeroPState r c (t + 1), false) else none := by
  have hz : ∀ x ∈ pBCol M c (zeroPState r c t), x = (0 : ℚ) := by
    rw [pBCol]
    show ∀ x ∈ deflate (zeroPState r c t).curI [] [] (getRowM M c (zeroPState r c t).curI), _
    rw [deflate_nil_dirs]
    exact getRowM_zero hM
  have hcond : (pBCol M c (zeroPState r c t)).getD
      (pJ M c (zeroPState r c t)) 0 = 0 := by
    rcases Nat.lt_or_ge (pJ M c (zeroPState r c t))
        (pBCol M c (zeroPState r c t)).length with hlt | hge
    · rw [List.getD_eq_getElem _ _ hlt]
      exact hz _ (List.getElem_mem hlt)
    · exact List.getD_eq_default _ _ hge
  have hJ : pJ M c (zeroPState r c t) = 0 := by
    rw [pJ, selectPivot_zero hz]
    rfl
  have hset : (zeroPState r c t).rowFree.set (zeroPState r c t).curI false =
      freePrefix r (t + 1) := by
    show (freePrefix r t).set t false = freePrefix r (t + 1)
    exact freePrefix_set r t
  rw [acaPartialBody, if_pos hcond, hset, firstFree_freePrefix]
  by_cases htr : t + 1 < r
  · rw [if_pos htr, if_pos htr]
    simp only [zeroPState] at hJ ⊢
    rw [hJ]
  · rw [if_neg htr, if_neg htr]

lemma acaPartialLoop_zeroM_wide {M : ℕ → ℕ → ℚ} (hM : ∀ i j, M i j = 0)
    {r c : ℕ} {eps : ℚ} (hrc : r ≤ c) :
    ∀ (fuel : ℕ) (t : ℕ),
      acaPartialLoop M r c eps fuel (zeroPState r c t) = none := by
  intro fuel
  induction fuel with
  | zero => intro t; rfl
  | succ fuel ih =>
    intro t
    rw [acaPartialLoop, acaPartialBody_zeroM hM]
    by_cases htr : t + 1 < r
    · rw [if_pos htr]
      simp only
      rw [if_pos (by simp only [zeroPState]; omega : (zeroPState r c (t + 1)).rpc < min r c)]
      exact ih (t + 1)
    · rw [if_neg htr]

lemma acaPartialLoop_zeroM_tall {M : ℕ → ℕ → ℚ} (hM : ∀ i j, M i j = 0)
    {r c : ℕ} {eps : ℚ} (hcr : c < r) :
    ∀ (fuel : ℕ) (t : ℕ), t < c → c ≤ fuel + t →
      acaPartialLoop M r c eps fuel (zeroPState r c t) =
        some (zeroPState r c c) := by
  intro fuel
  induction fuel with
  | zero => intro t ht hle; omega
  | succ fuel ih =>
    intro t ht hle
    rw [acaPartialLoop, acaPartialBody_zeroM hM, if_pos (by omega : t + 1 < r)]
    simp only
    by_cases htc : t + 1 < c
    · rw [if_pos (by simp only [zeroPState]; omega : (zeroPState r c (t + 1)).rpc < min r c)]
      exact ih (t + 1) htc (by omega)
    · rw [if_neg (by simp only [zeroPState]; omega : ¬(zeroPState r c (t + 1)).rpc < min r c)]
      have : t + 1 = c := by omega
      rw [this]

lemma initPartialState_eq_zeroPState (r c : ℕ) :
    initPartialState r c = zeroPState r c 0 := by
  rw [initPartialState, zeroPState, freePrefix_zero]

/-- `compressAcaPartial` on an all-zero block: empty result when there
are more rows than columns, out-of-bounds fallback otherwise. -/
lemma compressAcaPartial_zeroM {M : ℕ → ℕ → ℚ} (hM : ∀ i j, M i j = 0)
    {r c : ℕ} (eps : ℚ) (hc : 0 < c) :
    compressAcaPartial M r c eps =
      if r ≤ c then none
      else some { a := none, b := none, method := Method.AcaPartial } := by
  by_cases hrc : r ≤ c
  · rw [if_pos hrc, compressAcaPartial, acaPartialRun, initPartialState_eq_zeroPState,
      acaPartialLoop_zeroM_wide hM hrc _ 0]
    rfl
  · push_neg at hrc
    rw [if_neg (by omega), compressAcaPartial, acaPartialRun,
      initPartialState_eq_zeroPState,
      acaPartialLoop_zeroM_tall hM hrc _ 0 hc (by omega)]
    rfl

/-- `compressAcaFull` returns the empty `Rk` (tag `AcaFull`) on an
all-zero block. -/
lemma compressAcaFull_zeroM {M : ℕ → ℕ → ℚ} (hM : ∀ i j, M i j = 0)
    (r c : ℕ) (eps : ℚ) (kParam : ℕ) :
    compressAcaFull M r c eps kParam =
      { a := none, b := none, method := Method.AcaFull } := by
  have hbody : ∀ (A B : List (List ℚ)) (e : ℚ),
      acaFullBody r c eps { R := M, tmpA := A, tmpB := B, est := e } =
        ({ R := M, tmpA := A, tmpB := B, est := e }, true) := by
    intro A B e
    rw [acaFullBody, if_pos]
    simp [squaredNorm, hM]
  have hloop : ∀ fuel,
      acaFullLoop r c eps fuel { R := M, tmpA := [], tmpB := [], est := 0 } =
        { R := M, tmpA := [], tmpB := [], est := 0 } := by
    intro fuel
    cases fuel with
    | zero => rfl
    | succ fuel => rw [acaFullLoop, hbody]
  rw [compressAcaFull, acaFullRun, hloop]
  rfl

/-- `findCol` fails on the all-zero block. -/
lemma findColGo_zeroM {M : ℕ → ℕ → ℚ} (hM : ∀ i j, M i j = 0) {r : ℕ} :
    ∀ (js : List ℕ) (free : List Bool),
      (findColGo (getColM M r) js free).2 = none := by
  intro js
  induction js with
  | nil => intro free; rfl
  | cons j js ih =>
    intro free
    rw [findColGo]
    by_cases hfr : free.getD j false
    · rw [if_pos hfr]
      have hzc : isZeroVec (getColM M r j) = true :=
        isZeroVec_iff.mpr (getColM_zero hM)
      rw [if_pos hzc]
      exact ih _
    · rw [if_neg hfr]
      exact ih _

/-- `compressAcaPlus` returns the empty `Rk` (tag `AcaPlus`) on an
all-zero block. -/
lemma compressAcaPlus_zeroM {M : ℕ → ℕ → ℚ} (hM : ∀ i j, M i j = 0)
    (r c : ℕ) (eps : ℚ) :
    compressAcaPlus M r c eps =
      some { a := none, b := none, method := Method.AcaPlus } := by
  have hfc : (findCol (getColM M r) c (List.replicate c true)).2 = none :=
    findColGo_zeroM hM _ _
  rw [compressAcaPlus, acaPlusRun, acaPlusInit]
  rcases hres : findCol (getColM M r) c (List.replicate c true) with ⟨free1, o⟩
  rw [hres] at hfc
  simp only at hfc
  subst hfc
  rfl

/-- The all-zero test of `compressMatrix` accepts every all-zero buffer. -/
lemma zeroMatrixCheck_of_zero {A : FMat} (hz : ∀ x ∈ A.m, x = 0) :
    zeroMatrixCheck A = true := by
  rw [zeroMatrixCheck, List.all_eq_true]
  intro col _
  apply isZeroVec_iff.mpr
  intro x hx
  exact hz x (List.drop_subset _ _ (List.take_subset _ _ hx))

/-- `compressMatrix` on an all-zero buffer: empty `Rk`, tag
`NoCompression`. -/
lemma compressMatrix_zero {A : FMat} (hz : ∀ x ∈ A.m, x = 0)
    (svd : FMat → SvdResult) (findK : List ℚ → ℕ → ℚ → ℕ) (eps : ℚ) :
    compressMatrix A svd findK eps =
      { a := none, b := none, method := Method.NoCompression } := by
  rw [compressMatrix, if_pos (zeroMatrixCheck_of_zero hz)]

/-! ## Addressing of contiguous buffers (`lda = rows`) -/

lemma sliceColumn_getD (A : FMat) (j t : ℕ) :
    ((A.m.drop (A.rows * j)).take A.rows).getD t 0 =
      if t < A.rows then A.m.getD (A.rows * j + t) 0 else 0 := by
  by_cases ht : t < A.rows
  · rw [if_pos ht]
    simp [List.getD_eq_getElem?_getD, List.getElem?_take, List.getElem?_drop, ht]
  · rw [if_neg ht]
    apply List.getD_eq_default
    calc ((A.m.drop (A.rows * j)).take A.rows).length ≤ A.rows := by
          simp
      _ ≤ t := Nat.le_of_not_lt ht

lemma sliceColumn_length (A : FMat) (hl : A.lda = A.rows)
    (hm : A.m.length = A.lda * A.cols) {j : ℕ} (hj : j < A.cols) :
    ((A.m.drop (A.rows * j)).take A.rows).length = A.rows := by
  have hbound : A.rows * j + A.rows ≤ A.rows * A.cols := by
    have := Nat.mul_le_mul_left A.rows (Nat.succ_le_of_lt hj)
    rwa [Nat.mul_succ] at this
  have hmm : A.m.length = A.rows * A.cols := by rw [hm, hl]
  simp only [List.length_take, List.length_drop]
  omega

/-- The entry addressed at offset `rows·j + t` is `get t j` once
`lda = rows`. -/
lemma sliceColumn_entry (A : FMat) (hl : A.lda = A.rows) {j t : ℕ} :
    A.m.getD (A.rows * j + t) 0 = A.get t j := by
  rw [FMat.get, hl]
  congr 1
  ring

lemma pivotColumnSlice_eq (A : FMat) (hl : A.lda = A.rows)
    (hm : A.m.length = A.lda * A.cols) {j : ℕ} (hj : j < A.cols) :
    pivotColumnSlice A j = (List.range A.rows).map (fun i => A.get i j) := by
  apply list_eq_of_getD
  · rw [pivotColumnSlice, sliceColumn_length A hl hm hj]
    simp
  · intro t
    rw [pivotColumnSlice, sliceColumn_getD, getD_range_map]
    by_cases ht : t < A.rows
    · rw [if_pos ht, if_pos ht, sliceColumn_entry A hl]
    · rw [if_neg ht, if_neg ht]

lemma zeroMatrixCheck_iff (A : FMat) (hl : A.lda = A.rows)
    (hm : A.m.length = A.lda * A.cols) :
    zeroMatrixCheck A = true ↔
      ∀ i, i < A.rows → ∀ j, j < A.cols → A.get i j = 0 := by
  rw [zeroMatrixCheck, List.all_eq_true]
  constructor
  · intro h i hi j hj
    have hcol := isZeroVec_iff.mp (h j (List.mem_range.mpr hj))
    have hlen : ((A.m.drop (A.rows * j)).take A.rows).length = A.rows :=
      sliceColumn_length A hl hm hj
    have hiz : i < ((A.m.drop (A.rows * j)).take A.rows).length := by omega
    have := hcol _ (List.getElem_mem hiz)
    rw [← List.getD_eq_getElem _ 0 hiz, sliceColumn_getD, if_pos hi,
      sliceColumn_entry A hl] at this
    exact this
  · intro h j hjmem
    have hj : j < A.cols := List.mem_range.mp hjmem
    apply isZeroVec_iff.mpr
    intro x hx
    rcases List.mem_iff_getElem.mp hx with ⟨t, htl, rfl⟩
    have htr : t < A.rows := by
      have := sliceColumn_length A hl hm hj
      omega
    rw [← List.getD_eq_getElem _ 0 htl, sliceColumn_getD, if_pos htr,
      sliceColumn_entry A hl]
    exact h t htr j hj

/-! ## Claim-specific definitions -/

/-- The behaviour of `isAdmissible` as amended: the element gate applies
for every configured method other than `AcaPartial` and `AcaPlus`
(so also for `NoCompression`), the small-cluster gate always, and the
Hackbusch comparison when all gates pass.  (Comparison definition.) -/
def claimedAdmissibleAmended (method : Method) (maxElementsPerBlock : ℕ) (eta : ℚ)
    (rowsSize colsSize : ℕ) (diamRows diamCols dist : ℚ) : Bool :=
  if rowsSize < 2 ∨ colsSize < 2 then false
  else if ¬(method = Method.AcaPartial ∨ method = Method.AcaPlus) ∧
      maxElementsPerBlock < rowsSize * colsSize then false
  else decide (min diamRows diamCols ≤ eta * dist)

/-- The 2×2 rank-2 block `[[1, 1], [1, 2]]` (row i, column j); both
cross-approximation algorithms accept two pivots on it. -/
def mBug : ℕ → ℕ → ℚ := fun i j =>
  if i = 1 ∧ j = 1 then 2 else if i ≤ 1 ∧ j ≤ 1 then 1 else 0

/-- Final state of `acaPartialRun mBug 2 2 0`. -/
def partialFinalState : PartialState :=
  { rowFree := [false, false], colFree := [false, false],
    aCols := [[1, 1], [0, 1]], bCols := [[1, 1], [0, 1]],
    pivRows := [0, 1], pivCols := [0, 1],
    curI := 1, curJ := 1, k := 2, rpc := 2, est := 7 }

/-- Final state of `acaPlusRun mBug 2 2 0`. -/
def plusFinalState : PlusState :=
  { rowFree := [false, false], colFree := [false, false],
    aCols := [[1, 1], [0, 1]], bCols := [[1, 1], [0, 1]],
    pivRows := [0, 1], pivCols := [0, 1], iRef := some 1, jRef := 1,
    aRef := [0, 0], bRef := [0, 0], k := 2, est := 7 }

/-- The `Rk` produced by `compressAcaPartial mBug 2 2 0`. -/
def rkPartialResult : RkQ :=
  { a := some [[1, 1], [0, 1]], b := some [[1, 1], [0, 1]],
    method := Method.AcaPartial }

/-! ## Claim theorems -/

/-- C1: the spec's running-estimate update sums the cross terms over
every previously accepted pair `l = 0..k−1`.  `compressAcaPartial` and
`compressAcaPlus` indeed maintain the estimate of the spec's formula, but
`compressAcaFull`'s loop runs only to `l < nu − 1`: on the 2×2 block
`[[1, 1], [1, 2]]` (ε = 0, no `k_max`) the code's estimate is `13/2`
while the spec's formula over the same accepted pairs gives `7` (the true
squared Frobenius norm). -/
theorem claim_c1_estimate_update :
    ((acaFullRun mBug 2 2 0 0).est = 13 / 2 ∧
      specEstimate ((acaFullRun mBug 2 2 0 0).tmpA.zip
        (acaFullRun mBug 2 2 0 0).tmpB) = 7 ∧
      (13 : ℚ) / 2 ≠ 7) ∧
    (∀ (M : ℕ → ℕ → ℚ) (r c : ℕ) (eps : ℚ) (s : PartialState), 0 < r → 0 < c →
      acaPartialRun M r c eps = some s →
      s.est = specEstimate (s.aCols.zip s.bCols)) ∧
    (∀ (M : ℕ → ℕ → ℚ) (r c : ℕ) (eps : ℚ) (s : PlusState), 0 < r → 0 < c →
      acaPlusRun M r c eps = some (some s) →
      s.est = specEstimate (s.aCols.zip s.bCols)) := by
  refine ⟨⟨?_, ?_, by norm_num⟩, ?_, ?_⟩
  · with_unfolding_all rfl
  · with_unfolding_all rfl
  · intro M r c eps s hr hc h
    exact (acaPartialRun_inv hr hc h).estEq
  · intro M r c eps s hr hc h
    exact (acaPlusRun_inv hr hc h).estEq

/-- C1 witness: the estimate of the concrete `compressAcaPartial` run on
`mBug` equals the spec's formula. -/
theorem claim_c1_witness :
    partialFinalState.est =
      specEstimate (partialFinalState.aCols.zip partialFinalState.bCols) :=
  claim_c1_estimate_update.2.1 mBug 2 2 0 partialFinalState
    (by norm_num) (by norm_num) (by with_unfolding_all rfl)

/-- C2 counterexample: compressing an all-zero block through the SVD path
returns the tag `NoCompression`, not the requested method `Svd`. -/
theorem claim_c2_counterexample :
    (compressMatrix ⟨2, 2, 2, [0, 0, 0, 0]⟩ (fun _ => ⟨[], [], []⟩)
        (fun _ _ _ => 0) (1 / 1000)).method = Method.NoCompression ∧
    Method.NoCompression ≠ Method.Svd :=
  ⟨by with_unfolding_all rfl, by decide⟩

/-- C2 amended: on an all-zero block, the SVD path returns an empty `Rk`
tagged `NoCompression`; `compressAcaFull` and `compressAcaPlus` return an
empty `Rk` tagged with their method; `compressAcaPartial` returns an
empty `Rk` (tag `AcaPartial`) only when `rows > cols`, and otherwise the
fallback row search runs past the end of `rowFree` (undefined
behaviour, modelled by `none`). -/
theorem claim_c2_amended :
    (∀ (A : FMat) (svd : FMat → SvdResult) (findK : List ℚ → ℕ → ℚ → ℕ)
        (eps : ℚ), (∀ x ∈ A.m, x = 0) →
        compressMatrix A svd findK eps =
          { a := none, b := none, method := Method.NoCompression }) ∧
    (∀ (M : ℕ → ℕ → ℚ) (r c : ℕ) (eps : ℚ) (kParam : ℕ), (∀ i j, M i j = 0) →
        compressAcaFull M r c eps kParam =
          { a := none, b := none, method := Method.AcaFull }) ∧
    (∀ (M : ℕ → ℕ → ℚ) (r c : ℕ) (eps : ℚ), (∀ i j, M i j = 0) →
        compressAcaPlus M r c eps =
          some { a := none, b := none, method := Method.AcaPlus }) ∧
    (∀ (M : ℕ → ℕ → ℚ) (r c : ℕ) (eps : ℚ), (∀ i j, M i j = 0) → 0 < c →
        c < r →
        compressAcaPartial M r c eps =
          some { a := none, b := none, method := Method.AcaPartial }) ∧
    (∀ (M : ℕ → ℕ → ℚ) (r c : ℕ) (eps : ℚ), (∀ i j, M i j = 0) → 0 < c →
        r ≤ c → compressAcaPartial M r c eps = none) := by
  refine ⟨?_, ?_, ?_, ?_, ?_⟩
  · intro A svd findK eps hz
    exact compressMatrix_zero hz svd findK eps
  · intro M r c eps kParam hM
    exact compressAcaFull_zeroM hM r c eps kParam
  · intro M r c eps hM
    exact compressAcaPlus_zeroM hM r c eps
  · intro M r c eps hM hc hcr
    rw [compressAcaPartial_zeroM hM eps hc, if_neg (by omega)]
  · intro M r c eps hM hc hrc
    rw [compressAcaPartial_zeroM hM eps hc, if_pos hrc]

/-- C2 witness: concrete zero blocks, one tall (3×2, empty result) and
one square (8×8, out-of-bounds fallback). -/
theorem claim_c2_witness :
    compressAcaPartial (fun _ _ => (0 : ℚ)) 3 2 0 =
      some { a := none, b := none, method := Method.AcaPartial } ∧
    compressAcaPartial (fun _ _ => (0 : ℚ)) 8 8 (1 / 1000000) = none :=
  ⟨claim_c2_amended.2.2.2.1 _ 3 2 0 (fun _ _ => rfl) (by norm_num) (by norm_num),
    claim_c2_amended.2.2.2.2 _ 8 8 _ (fun _ _ => rfl) (by norm_num) (by norm_num)⟩

/-- C3 counterexample: with `k_max = 1`, `compressAcaPartial` still
returns rank 2 on the 2×2 block `[[1, 1], [1, 2]]` — the partial and ACA+
paths never read `approx.k`. -/
theorem claim_c3_counterexample :
    (compressAcaPartial mBug 2 2 0).map RkQ.rank = some 2 ∧ ¬(2 ≤ 1) :=
  ⟨by with_unfolding_all rfl, by decide⟩

/-- C3 amended: every algorithm obeys `k ≤ min(rows, cols)`; the `k_max`
cap holds for `compressAcaFull` (the only algorithm that reads it). -/
theorem claim_c3_amended :
    (∀ (M : ℕ → ℕ → ℚ) (r c : ℕ) (eps : ℚ) (kParam : ℕ),
        (compressAcaFull M r c eps kParam).rank ≤ min r c ∧
        (0 < kParam → (compressAcaFull M r c eps kParam).rank ≤ kParam)) ∧
    (∀ (M : ℕ → ℕ → ℚ) (r c : ℕ) (eps : ℚ) (rk : RkQ), 0 < r → 0 < c →
        compressAcaPartial M r c eps = some rk → rk.rank ≤ min r c) ∧
    (∀ (M : ℕ → ℕ → ℚ) (r c : ℕ) (eps : ℚ) (rk : RkQ), 0 < r → 0 < c →
        compressAcaPlus M r c eps = some rk → rk.rank ≤ min r c) := by
  refine ⟨?_, ?_, ?_⟩
  · intro M r c eps kParam
    have hrun := @acaFullRun_inv M r c eps kParam
    have hrank : (compressAcaFull M r c eps kParam).rank ≤ acaFullMaxK r c kParam := by
      by_cases h0 : (acaFullRun M r c eps kParam).tmpA.length = 0
      · simp [compressAcaFull, h0, RkQ.rank]
      · simp only [compressAcaFull, if_neg h0, RkQ.rank]
        exact hrun.2
    constructor
    · refine le_trans hrank ?_
      rw [acaFullMaxK]
      split
      · exact le_trans (Nat.min_le_left _ _) (le_refl _)
      · exact le_refl _
    · intro hk
      refine le_trans hrank ?_
      rw [acaFullMaxK, if_pos hk]
      exact Nat.min_le_right _ _
  · intro M r c eps rk hr hc h
    rw [compressAcaPartial] at h
    rcases Option.map_eq_some'.mp h with ⟨s, hs, rfl⟩
    have hinv := acaPartialRun_inv hr hc hs
    by_cases hk : s.k = 0
    · simp [hk, RkQ.rank]
    · simp only [if_neg hk, RkQ.rank]
      have h2 : s.k ≤ r := by
        have h3 := nodup_bounded_length_le hinv.nodupR hinv.prB
        have h4 := hinv.prLen
        omega
      have h5 : s.k ≤ c := by
        have h6 := nodup_bounded_length_le hinv.nodupC hinv.pcB
        have h7 := hinv.pcLen
        omega
      rw [hinv.aLen]
      exact Nat.le_min.mpr ⟨h2, h5⟩
  · intro M r c eps rk hr hc h
    rw [compressAcaPlus] at h
    rcases hrun : acaPlusRun M r c eps with _ | o
    · rw [hrun] at h
      have : rk = { a := none, b := none, method := Method.AcaPlus } :=
        (Option.some.inj h).symm
      subst this
      simp [RkQ.rank]
    · rw [hrun] at h
      rcases o with _ | s
      · exact absurd h (by simp)
      · simp only at h
        have hrk : rk =
            { a := some s.aCols, b := some s.bCols, method := Method.AcaPlus } :=
          (Option.some.inj h).symm
        subst hrk
        have hinv := acaPlusRun_inv hr hc hrun
        simp only [RkQ.rank]
        have h2 : s.k ≤ r := by
          have h3 := nodup_bounded_length_le hinv.nodupR hinv.prB
          have h4 := hinv.prLen
          omega
        have h5 : s.k ≤ c := by
          have h6 := nodup_bounded_length_le hinv.nodupC hinv.pcB
          have h7 := hinv.pcLen
          omega
        rw [hinv.aLen]
        exact Nat.le_min.mpr ⟨h2, h5⟩

/-- C3 witness: the cap and min bounds at concrete inputs. -/
theorem claim_c3_witness :
    (compressAcaFull mBug 2 2 0 1).rank ≤ 1 ∧ rkPartialResult.rank ≤ min 2 2 :=
  ⟨(claim_c3_amended.1 mBug 2 2 0 1).2 (by norm_num),
    claim_c3_amended.2.1 mBug 2 2 0 rkPartialResult (by norm_num) (by norm_num)
      (by with_unfolding_all rfl)⟩

/-- C4: in every successful `compressAcaPartial` and `compressAcaPlus`
run, the number of accepted column vectors equals the number of accepted
row vectors equals the rank `k`, and no row index and no column index is
accepted as a pivot more than once. -/
theorem claim_c4_pivots :
    (∀ (M : ℕ → ℕ → ℚ) (r c : ℕ) (eps : ℚ) (s : PartialState), 0 < r → 0 < c →
        acaPartialRun M r c eps = some s →
        s.aCols.length = s.k ∧ s.bCols.length = s.k ∧
        s.pivRows.length = s.k ∧ s.pivCols.length = s.k ∧
        s.pivRows.Nodup ∧ s.pivCols.Nodup) ∧
    (∀ (M : ℕ → ℕ → ℚ) (r c : ℕ) (eps : ℚ) (s : PlusState), 0 < r → 0 < c →
        acaPlusRun M r c eps = some (some s) →
        s.aCols.length = s.k ∧ s.bCols.length = s.k ∧
        s.pivRows.length = s.k ∧ s.pivCols.length = s.k ∧
        s.pivRows.Nodup ∧ s.pivCols.Nodup) := by
  constructor
  · intro M r c eps s hr hc h
    have hinv := acaPartialRun_inv hr hc h
    exact ⟨hinv.aLen, hinv.bLen, hinv.prLen, hinv.pcLen, hinv.nodupR, hinv.nodupC⟩
  · intro M r c eps s hr hc h
    have hinv := acaPlusRun_inv hr hc h
    exact ⟨hinv.aLen, hinv.bLen, hinv.prLen, hinv.pcLen, hinv.nodupR, hinv.nodupC⟩

/-- C4 witness: the concrete runs on `mBug`. -/
theorem claim_c4_witness :
    partialFinalState.pivRows.Nodup ∧ plusFinalState.pivCols.Nodup :=
  ⟨(claim_c4_pivots.1 mBug 2 2 0 partialFinalState (by norm_num) (by norm_num)
      (by with_unfolding_all rfl)).2.2.2.2.1,
    (claim_c4_pivots.2 mBug 2 2 0 plusFinalState (by norm_num) (by norm_num)
      (by with_unfolding_all rfl)).2.2.2.2.2⟩

/-- C5 counterexample: on the square all-zero 8×8 block the fallback row
search of `compressAcaPartial` eventually finds no free row and runs past
the end of the array (undefined behaviour, modelled by `none`); in
particular the call does not return a well-formed `Rk`. -/
theorem claim_c5_counterexample :
    compressAcaPartial (fun _ _ => (0 : ℚ)) 8 8 (1 / 100) = none := by
  rw [compressAcaPartial, acaPartialRun, initPartialState_eq_zeroPState,
    acaPartialLoop_zeroM_wide (fun _ _ => rfl) (le_refl 8) _ 0]
  rfl

/-- C5 amended: whenever the deflated pivot row vanishes at its selected
column and at least one row is still free, the fallback picks the least
free row index, skips the update, and continues; when no free row
remains the search runs out of bounds. -/
theorem claim_c5_amended (M : ℕ → ℕ → ℚ) (r c : ℕ) (eps : ℚ) (s : PartialState)
    (hzero : (pBCol M c s).getD (pJ M c s) 0 = 0)
    (hfree : ∃ i, (s.rowFree.set s.curI false).getD i false = true) :
    ∃ newI, firstFree (s.rowFree.set s.curI false) = some newI ∧
      (s.rowFree.set s.curI false).getD newI false = true ∧
      (∀ t, t < newI → (s.rowFree.set s.curI false).getD t false = false) ∧
      acaPartialBody M r c eps s =
        some ({ s with
                  rowFree := s.rowFree.set s.curI false, rpc := s.rpc + 1,
                  curI := newI, curJ := pJ M c s }, false) := by
  obtain ⟨i, hi⟩ := hfree
  have hne : firstFree (s.rowFree.set s.curI false) ≠ none := by
    intro hcon
    have hall := firstFree_none_iff.mp hcon
    rcases Nat.lt_or_ge i (s.rowFree.set s.curI false).length with hlt | hge
    · have hmem := List.getElem_mem hlt
      have := hall _ hmem
      rw [List.getD_eq_getElem _ _ hlt] at hi
      rw [hi] at this
      exact Bool.true_eq_false.mp this
    · rw [List.getD_eq_default _ _ hge] at hi
      exact Bool.false_ne_true hi
  rcases hf : firstFree (s.rowFree.set s.curI false) with _ | newI
  · exact absurd hf hne
  obtain ⟨h1, h2⟩ := firstFree_least hf
  refine ⟨newI, rfl, h1, h2, ?_⟩
  rw [acaPartialBody, if_pos hzero, hf]

/-- C5 witness: the first iteration on the all-zero 2×2 block falls back
to row 1. -/
theorem claim_c5_witness :
    acaPartialBody (fun _ _ => (0 : ℚ)) 2 2 0 (initPartialState 2 2) =
      some ({ initPartialState 2 2 with
                rowFree := [false, true], rpc := 1, curI := 1, curJ := 0 },
        false) := by
  obtain ⟨newI, h1, _, _, h4⟩ :=
    claim_c5_amended (fun _ _ => (0 : ℚ)) 2 2 0 (initPartialState 2 2)
      (by with_unfolding_all rfl) ⟨1, by with_unfolding_all rfl⟩
  have h1' : firstFree ((initPartialState 2 2).rowFree.set
      (initPartialState 2 2).curI false) = some 1 := by
    with_unfolding_all rfl
  have hn : newI = 1 := by
    rw [h1'] at h1
    exact (Option.some.inj h1).symm
  rw [hn] at h4
  rw [h4]
  with_unfolding_all rfl

/-- C6: every non-empty `Rk` produced by the four compression algorithms
has `A` with `rows` rows, `B` with `cols` rows, and matching column
counts. -/
theorem claim_c6_shapes :
    (∀ (M : ℕ → ℕ → ℚ) (r c : ℕ) (eps : ℚ) (kParam : ℕ)
        (A B : List (List ℚ)),
        (compressAcaFull M r c eps kParam).a = some A →
        (compressAcaFull M r c eps kParam).b = some B →
        A.length = B.length ∧ (∀ col ∈ A, col.length = r) ∧
          (∀ col ∈ B, col.length = c)) ∧
    (∀ (M : ℕ → ℕ → ℚ) (r c : ℕ) (eps : ℚ) (rk : RkQ) (A B : List (List ℚ)),
        0 < r → 0 < c → compressAcaPartial M r c eps = some rk →
        rk.a = some A → rk.b = some B →
        A.length = B.length ∧ (∀ col ∈ A, col.length = r) ∧
          (∀ col ∈ B, col.length = c)) ∧
    (∀ (M : ℕ → ℕ → ℚ) (r c : ℕ) (eps : ℚ) (rk : RkQ) (A B : List (List ℚ)),
        0 < r → 0 < c → compressAcaPlus M r c eps = some rk →
        rk.a = some A → rk.b = some B →
        A.length = B.length ∧ (∀ col ∈ A, col.length = r) ∧
          (∀ col ∈ B, col.length = c)) ∧
    (∀ (Am : FMat) (svd : FMat → SvdResult) (findK : List ℚ → ℕ → ℚ → ℕ)
        (eps : ℚ) (A B : List (List ℚ)),
        (compressMatrix Am svd findK eps).a = some A →
        (compressMatrix Am svd findK eps).b = some B →
        A.length = B.length ∧ (∀ col ∈ A, col.length = Am.rows) ∧
          (∀ col ∈ B, col.length = Am.cols)) := by
  refine ⟨?_, ?_, ?_, ?_⟩
  · intro M r c eps kParam A B hA hB
    have hrun := @acaFullRun_inv M r c eps kParam
    by_cases h0 : (acaFullRun M r c eps kParam).tmpA.length = 0
    · rw [compressAcaFull] at hA
      simp only [if_pos h0] at hA
      exact absurd hA (by simp)
    · rw [compressAcaFull] at hA hB
      simp only [if_neg h0] at hA hB
      have hA' := Option.some.inj hA
      have hB' := Option.some.inj hB
      subst hA'
      subst hB'
      exact ⟨hrun.1.abLen, hrun.1.aDims, hrun.1.bDims⟩
  · intro M r c eps rk A B hr hc h hA hB
    rw [compressAcaPartial] at h
    rcases Option.map_eq_some'.mp h with ⟨s, hs, rfl⟩
    have hinv := acaPartialRun_inv hr hc hs
    by_cases hk : s.k = 0
    · rw [if_pos hk] at hA
      exact absurd hA (by simp)
    · rw [if_neg hk] at hA hB
      simp only at hA hB
      have hA' := Option.some.inj hA
      have hB' := Option.some.inj hB
      subst hA'
      subst hB'
      exact ⟨hinv.aLen.trans hinv.bLen.symm, hinv.aDims, hinv.bDims⟩
  · intro M r c eps rk A B hr hc h hA hB
    rw [compressAcaPlus] at h
    rcases hrun : acaPlusRun M r c eps with _ | o
    · rw [hrun] at h
      have : rk = { a := none, b := none, method := Method.AcaPlus } :=
        (Option.some.inj h).symm
      subst this
      exact absurd hA (by simp)
    · rw [hrun] at h
      rcases o with _ | s
      · exact absurd h (by simp)
      · simp only at h
        have hrk : rk =
            { a := some s.aCols, b := some s.bCols, method := Method.AcaPlus } :=
          (Option.some.inj h).symm
        subst hrk
        simp only at hA hB
        have hA' := Option.some.inj hA
        have hB' := Option.some.inj hB
        subst hA'
        subst hB'
        have hinv := acaPlusRun_inv hr hc hrun
        exact ⟨hinv.aLen.trans hinv.bLen.symm, hinv.aDims, hinv.bDims⟩
  · intro Am svd findK eps A B hA hB
    rw [compressMatrix] at hA hB
    by_cases hz : zeroMatrixCheck Am = true
    · rw [if_pos hz] at hA
      exact absurd hA (by simp)
    · rw [if_neg hz] at hA hB
      by_cases hk : findK (svd Am).sigma (min Am.rows Am.cols) eps = 0
      · simp only [hk, if_pos rfl] at hA
        exact absurd hA (by simp)
      · simp only [if_neg hk] at hA hB
        have hA' := Option.some.inj hA
        have hB' := Option.some.inj hB
        subst hA'
        subst hB'
        refine ⟨by simp, ?_, ?_⟩
        · intro col hcol
          rcases List.mem_map.mp hcol with ⟨j, _, rfl⟩
          simp
        · intro col hcol
          rcases List.mem_map.mp hcol with ⟨i, _, rfl⟩
          simp

/-- C6 witness: shapes of the concrete `compressAcaPartial` result on
`mBug`. -/
theorem claim_c6_witness :
    ([[1, 1], [0, 1]] : List (List ℚ)).length =
        ([[1, 1], [0, 1]] : List (List ℚ)).length ∧
      (∀ col ∈ ([[1, 1], [0, 1]] : List (List ℚ)), col.length = 2) ∧
      (∀ col ∈ ([[1, 1], [0, 1]] : List (List ℚ)), col.length = 2) :=
  claim_c6_shapes.2.1 mBug 2 2 0 rkPartialResult [[1, 1], [0, 1]]
    [[1, 1], [0, 1]] (by norm_num) (by norm_num) (by with_unfolding_all rfl)
    rfl rfl

/-- C7 counterexample: with the configured method `NoCompression` the
code still applies the element gate (`isFullAlgo` is every method other
than `AcaPartial`/`AcaPlus`), so a geometrically admissible 3×3 pair is
rejected where the claim (gate only for `Svd`/`AcaFull`) predicts
acceptance. -/
theorem claim_c7_counterexample :
    isAdmissible Method.NoCompression 8 1 3 3 1 1 5 = false ∧
    claimedAdmissible Method.NoCompression 8 1 3 3 1 1 5 = true :=
  ⟨by with_unfolding_all rfl, by with_unfolding_all rfl⟩

/-- C7 amended: `isAdmissible` rejects small clusters, applies the
element gate exactly when the configured method is neither `AcaPartial`
nor `AcaPlus`, and otherwise returns the Hackbusch comparison. -/
theorem claim_c7_amended (method : Method) (maxE : ℕ) (eta : ℚ)
    (rS cS : ℕ) (dR dC dist : ℚ) :
    isAdmissible method maxE eta rS cS dR dC dist =
      claimedAdmissibleAmended method maxE eta rS cS dR dC dist := by
  rw [isAdmissible, claimedAdmissibleAmended]
  split_ifs <;> rfl

/-- C8: the C++ `isAdmissible` never consults the `always_` flag declared
and documented in admissibility.hpp: on a pair passing both size gates
(2×2 clusters, 4 ≤ 100 elements) whose geometry fails the Hackbusch test
(min(2,3) > 1·1), it returns `false` — under `setAlways(true)` the claim
requires `true`. -/
theorem claim_c8_always_ignored :
    isAdmissible Method.Svd 100 1 2 2 2 3 1 = false ∧
    ¬((2 : ℕ) < 2 ∨ (2 : ℕ) < 2) ∧ 2 * 2 ≤ 100 :=
  ⟨by with_unfolding_all rfl, by decide, by decide⟩

/-- C9: on a sparse block, a row flagged null by `is_null_row` is
returned as the (zero-initialised) result vector without invoking the
user kernel: the outcome is the zero vector for every kernel
implementation. -/
theorem claim_c9_sparse_null_row (kernelRow : ℕ → List ℚ → List ℚ)
    (isNullRow : ℕ → Bool) (i n : ℕ) (h : isNullRow i = true) :
    clusterGetRow BlockType.sparse isNullRow kernelRow i
      (List.replicate n 0) = List.replicate n 0 := by
  rw [clusterGetRow, if_neg]
  simp [h]

/-- C9 witness: a kernel that would fill the vector with 5s is not
invoked. -/
theorem claim_c9_witness :
    clusterGetRow BlockType.sparse (fun _ => true) (fun _ _ => [5, 5]) 0
      (List.replicate 2 0) = List.replicate 2 0 :=
  claim_c9_sparse_null_row (fun _ _ => [5, 5]) (fun _ => true) 0 2 rfl

/-- C10: under `lda = rows` (contiguous storage, as satisfied by
assembled blocks), the `i + j·rows` addressing of `compressMatrix`'s
all-zero test is exact — it succeeds iff every entry is zero — and the
column copied by `compressAcaFull` at offset `j·rows` is exactly column
`j`. -/
theorem claim_c10_contiguous (A : FMat) (hl : A.lda = A.rows)
    (hm : A.m.length = A.lda * A.cols) :
    (zeroMatrixCheck A = true ↔
      ∀ i, i < A.rows → ∀ j, j < A.cols → A.get i j = 0) ∧
    (∀ j, j < A.cols →
      pivotColumnSlice A j = (List.range A.rows).map (fun i => A.get i j)) :=
  ⟨zeroMatrixCheck_iff A hl hm, fun _ hj => pivotColumnSlice_eq A hl hm hj⟩

/-- C10 witness: the 2×2 buffer `[1, 2, 3, 4]`. -/
theorem claim_c10_witness :
    pivotColumnSlice ⟨2, 2, 2, [1, 2, 3, 4]⟩ 1 =
      (List.range 2).map (fun i => FMat.get ⟨2, 2, 2, [1, 2, 3, 4]⟩ i 1) :=
  (claim_c10_contiguous ⟨2, 2, 2, [1, 2, 3, 4]⟩ rfl (by decide)).2 1 (by decide)

end HmatOss
